import Mathlib

/-!
Verification of the YTtranscript repository's subtitle-selection and
video-id-extraction logic.

The transcript-retrieval collaborator (the youtube-transcript-api package)
is external to the repository; it is embedded as an abstract `Collaborator`
record, and a concrete instance modelled from the spec is used for
concrete runs.  The functions `pick_transcript`, `fetch_transcript_data`,
`collect_available_languages` and the exit-code dispatch of `main` are
translated from src/download_subtitles.py.  The two `extract_video_id`
implementations are translated from src/download_subtitles.py (namespace
`DS`) and src/get_transcript.py (namespace `GT`), together with a model of
Python's `urllib.parse.urlparse` / `parse_qs` and of the regular-expression
operations they rely on, over `List Char`.
-/

/-- Error taxonomy of the script: `invalidURL` stands for Python's
`ValueError`, the middle three for the youtube-transcript-api exception
classes caught in `main`, and `other` for any other exception (the
catch-all `except Exception` branch). -/
inductive Err where
  | invalidURL (msg : String)
  | transcriptsDisabled
  | noTranscriptFound (msg : String)
  | videoUnavailable
  | other (msg : String)
deriving DecidableEq

/-- A transcript descriptor as exposed by the collaborator: language code,
translatability flag, and the advertised translation-target codes
(Python: the `language_code` values of `transcript.translation_languages`). -/
structure Transcript where
  language_code : String
  is_translatable : Bool
  translation_languages : List String
deriving DecidableEq

/-- The consumed surface of the transcript-retrieval collaborator
(spec section 6): `find_transcript` on a listing, `translate`, and `fetch`
(whose payload type `σ` is opaque here — caption payloads are out of
scope).  Kept abstract so that theorems quantifying over it express that
no particular collaborator behaviour is relied on. -/
structure Collaborator (σ : Type) where
  find_transcript : List String → Except Err Transcript
  translate : Transcript → String → Transcript
  fetch : Transcript → Bool → Except Err σ

instance {ε α : Type} [DecidableEq ε] [DecidableEq α] : DecidableEq (Except ε α) := fun x y =>
  match x, y with
  | .ok a, .ok b =>
    if h : a = b then .isTrue (congrArg Except.ok h)
    else .isFalse (fun hh => h (Except.ok.inj hh))
  | .error a, .error b =>
    if h : a = b then .isTrue (congrArg Except.error h)
    else .isFalse (fun hh => h (Except.error.inj hh))
  | .ok _, .error _ => .isFalse (fun hh => Except.noConfusion hh)
  | .error _, .ok _ => .isFalse (fun hh => Except.noConfusion hh)

/-- Python truthiness of an `Optional[str]` (`None` and `""` are falsy). -/
def strTruthy : Option String → Bool
  | none => false
  | some s => !s.isEmpty

/-- Python truthiness of an `Optional[List[str]]` (`None` and `[]` falsy). -/
def listTruthy : Option (List String) → Bool
  | none => false
  | some l => !l.isEmpty

/-- src/download_subtitles.py, `collect_available_languages`. -/
def collect_available_languages (transcripts : List Transcript) : List String :=
  transcripts.map (·.language_code)

/-- src/download_subtitles.py, `pick_transcript`: try the preference list
first (swallowing only a `NoTranscriptFound`), then fall back to the given
fallback codes, raising `NoTranscriptFound` if the fallback list is empty. -/
def pick_transcript {σ : Type} (c : Collaborator σ)
    (languages : Option (List String)) (fallback_codes : List String) :
    Except Err Transcript :=
  let fallback : Except Err Transcript :=
    if fallback_codes.isEmpty then
      .error (.noTranscriptFound "No subtitles published for this video.")
    else c.find_transcript fallback_codes
  if listTruthy languages then
    match c.find_transcript (languages.getD []) with
    | .ok t => .ok t
    | .error (.noTranscriptFound _) => fallback
    | .error e => .error e
  else fallback

/-- `pick_transcript` with its empty-fallback guard branch removed: the
fallback request is made unconditionally.  Used to state that the guard
branch is dead code whenever the fallback list is non-empty. -/
def pick_transcript_unguarded {σ : Type} (c : Collaborator σ)
    (languages : Option (List String)) (fallback_codes : List String) :
    Except Err Transcript :=
  if listTruthy languages then
    match c.find_transcript (languages.getD []) with
    | .ok t => .ok t
    | .error (.noTranscriptFound _) => c.find_transcript fallback_codes
    | .error e => .error e
  else c.find_transcript fallback_codes

/-- The single-quote character, as a string. -/
def squote : String := String.singleton (Char.ofNat 39)

/-- Lexicographic (code-point) order on character lists, as a Boolean:
Python's string `<=`. -/
def charsLe : List Char → List Char → Bool
  | [], _ => true
  | _ :: _, [] => false
  | a :: as, b :: bs => if a = b then charsLe as bs else decide (a < b)

/-- Python's string `<=`, on Lean strings. -/
def strLeB (a b : String) : Bool := charsLe a.data b.data

/-- The translation targets advertised by a transcript, deduplicated and
sorted lexicographically ascending — the Python expression
`sorted(supported_translations)` where `supported_translations` is a set
built from `transcript.translation_languages`.  (`sorted` on a finite set
of distinct strings produces the unique sorted duplicate-free list,
which `insertionSort` of `dedup` also produces.) -/
def sortedTargets (t : Transcript) : List String :=
  List.insertionSort (fun a b => strLeB a b = true) t.translation_languages.dedup

/-- The message of the translation-target error raised in
`fetch_transcript_data` (an f-string in the Python source). -/
def translationErrorMessage (translate_to : String) (t : Transcript) : String :=
  "Transcript cannot be translated to " ++ squote ++ translate_to ++ squote ++
    ". Available targets: " ++ String.intercalate ", " (sortedTargets t)

/-- src/download_subtitles.py, `fetch_transcript_data`, with the listing
already performed: `transcripts = list(api.list(video_id))` is passed in
(a failing listing is handled by the caller, see `run_main`). -/
def fetch_transcript_data {σ : Type} (c : Collaborator σ)
    (transcripts : List Transcript) (languages : Option (List String))
    (translate_to : Option String) (preserve_formatting : Bool) :
    Except Err (σ × String × List String) :=
  if transcripts.isEmpty then
    .error (.noTranscriptFound "This video does not expose any transcripts.")
  else
    let available_codes := collect_available_languages transcripts
    match pick_transcript c languages available_codes with
    | .error e => .error e
    | .ok t0 =>
      let afterTranslate : Except Err Transcript :=
        if strTruthy translate_to then
          let target := translate_to.getD ""
          if !t0.is_translatable then
            .error (.noTranscriptFound "This transcript cannot be translated.")
          else if !t0.translation_languages.isEmpty &&
              !(t0.translation_languages.contains target) then
            .error (.noTranscriptFound (translationErrorMessage target t0))
          else .ok (c.translate t0 target)
        else .ok t0
      match afterTranslate with
      | .error e => .error e
      | .ok t =>
        match c.fetch t preserve_formatting with
        | .error e => .error e
        | .ok fetched => .ok (fetched, t.language_code, available_codes)

/-- Modelled from the spec (section 6 and state Q1): the collaborator's
`find` "fails with NoTranscriptFound when no descriptor matches any code",
matching codes exactly, in preference order, against a listing. -/
def findExact (ts : List Transcript) : List String → Except Err Transcript
  | [] => .error (.noTranscriptFound
      "No transcripts were found for any of the requested language codes.")
  | l :: rest =>
    match ts.find? (fun t => t.language_code == l) with
    | some t => .ok t
    | none => findExact ts rest

/-- Modelled from the spec (section 6): the collaborator's `translate`
returns the chosen transcript in the requested target language. -/
def translateModel (t : Transcript) (target : String) : Transcript :=
  { t with language_code := target }

/-- A concrete collaborator over a listing, with the behaviours modelled
from the spec; its fetch succeeds, returning an opaque payload. -/
def specCollab (ts : List Transcript) : Collaborator String :=
  { find_transcript := findExact ts
    translate := translateModel
    fetch := fun t _ => .ok ("payload:" ++ t.language_code) }

/-- src/download_subtitles.py, `main`: the mapping from the outcome of the
try-block to the process exit code (the ordered `except` clauses). -/
def mainExitCode {α : Type} : Except Err α → Nat
  | .ok _ => 0
  | .error (.invalidURL _) => 1
  | .error .transcriptsDisabled => 2
  | .error (.noTranscriptFound _) => 3
  | .error .videoUnavailable => 4
  | .error (.other _) => 5

/-- The video-id pattern character class `[A-Za-z0-9_-]` (ASCII). -/
def isIdChar (c : Char) : Bool := c.isAlpha || c.isDigit || c == '_' || c == '-'

/-- `re.fullmatch` of `[A-Za-z0-9_-]{11}` against a string. -/
def fullmatchId (s : List Char) : Bool := s.length == 11 && s.all isIdChar

/-- `re.search` of `[A-Za-z0-9_-]{11}`: the leftmost window of eleven
identifier characters, if any. -/
def searchId : List Char → Option (List Char)
  | [] => none
  | x :: xs =>
    if fullmatchId ((x :: xs).take 11) then some ((x :: xs).take 11)
    else searchId xs

/-- Whether the string contains an 11-character identifier-shaped substring
anywhere (the property quantified over in the spec's test list). -/
def containsIdRun (l : List Char) : Bool :=
  l.tails.any (fun t => fullmatchId (t.take 11))

/-- Split at the first occurrence of a character: Python `s.split(c, 1)`
(the second component is `none` when the character does not occur). -/
def breakAt (c : Char) : List Char → List Char × Option (List Char)
  | [] => ([], none)
  | x :: xs =>
    if x == c then ([], some xs)
    else
      let r := breakAt c xs
      (x :: r.1, r.2)

/-- Python `s.split(c)` for a single-character separator (keeps empty
fields, always returns at least one field). -/
def splitOnChar (c : Char) : List Char → List (List Char)
  | [] => [[]]
  | x :: xs =>
    match splitOnChar c xs with
    | [] => [[]]
    | h :: t => if x == c then [] :: h :: t else (x :: h) :: t

/-- Python `s.strip(c)` for a single strip character. -/
def pystrip (c : Char) (l : List Char) : List Char :=
  ((l.dropWhile (fun x => x == c)).reverse.dropWhile (fun x => x == c)).reverse

/-- WHATWG C0-control-or-space characters, stripped from the front of the
URL by CPython's `urlsplit`. -/
def c0OrSpace (c : Char) : Bool := c.toNat ≤ 32

/-- Leading-control stripping done by CPython's `urlsplit`. -/
def lstripControl (l : List Char) : List Char := l.dropWhile c0OrSpace

/-- The three characters CPython's `urlsplit` deletes from the URL. -/
def isUnsafeUrlChar (c : Char) : Bool := c == '\t' || c == '\r' || c == '\n'

/-- Deletion of tab, CR and LF done by CPython's `urlsplit`. -/
def removeUnsafe (l : List Char) : List Char := l.filter (fun c => !isUnsafeUrlChar c)

/-- Characters allowed in a URL scheme (after the leading letter). -/
def isSchemeChar (c : Char) : Bool :=
  c.isAlpha || c.isDigit || c == '+' || c == '-' || c == '.'

/-- The scheme-splitting step of CPython's `urlsplit`: when the part
before the first colon is non-empty, starts with an ASCII letter and
consists of scheme characters, return the lowercased scheme and the rest;
otherwise the scheme is empty and the URL is left whole. -/
def splitScheme (url : List Char) : List Char × List Char :=
  match breakAt ':' url with
  | (before, some rest) =>
    if !before.isEmpty && (before.headD ' ').isAlpha && before.all isSchemeChar then
      (before.map Char.toLower, rest)
    else ([], url)
  | (_, none) => ([], url)

/-- Characters ending the netloc in CPython's `_splitnetloc`. -/
def netlocStop (c : Char) : Bool := c == '/' || c == '?' || c == '#'

/-- The netloc-splitting step of `urlsplit`: when the (scheme-stripped) URL
starts with `//`, the netloc runs up to the next `/`, `?` or `#`. -/
def splitNetloc (url : List Char) : List Char × List Char :=
  match url with
  | '/' :: '/' :: rest =>
    (rest.takeWhile (fun c => !netlocStop c), rest.dropWhile (fun c => !netlocStop c))
  | _ => ([], url)

/-- CPython `urllib.parse._splitparams`: strip a `;params` suffix from the
last path segment (applied by `urlparse` when the path contains `;`). -/
def splitParams (p : List Char) : List Char :=
  if ';' ∈ p then
    let lastSeg := (p.reverse.takeWhile (fun c => !(c == '/'))).reverse
    let pre := p.take (p.length - lastSeg.length)
    match breakAt ';' lastSeg with
    | (_, none) => p
    | (before, some _) => pre ++ before
  else p

/-- The scheme / netloc / path / params / query / fragment components of
`urllib.parse.urlparse`, restricted to the three components the scripts
read. -/
structure UrlParts where
  netloc : List Char
  path : List Char
  query : List Char
deriving DecidableEq

/-- The schemes for which CPython's `urlparse` splits path parameters
(`uses_params`; the empty scheme is a member). -/
def uses_params : List (List Char) :=
  [[], "ftp".data, "hdl".data, "prospero".data, "http".data, "imap".data,
    "https".data, "shttp".data, "rtsp".data, "rtsps".data, "rtspu".data,
    "sip".data, "sips".data, "mms".data, "sftp".data, "tel".data]

/-- `urllib.parse.urlparse` as in CPython 3.11: strip leading C0 controls
and spaces, delete tab / CR / LF, strip a valid scheme (lowercased), split
the netloc after `//` — raising `ValueError` (here `Except.error`) for an
unmatched square bracket in the netloc, as `urlsplit` does — then split
off the fragment at the first `#`, the query at the first `?`, and, when
the scheme is in `uses_params`, the path params at `;`.  The further
`ValueError` sources of CPython's `urlsplit` — the `ipaddress`-based
validation of a bracket-enclosed host and the NFKC check on non-ASCII
netlocs — are not modelled; they only add parse failures, which this
pipeline propagates the same way as the modelled one. -/
def urlparse (url : List Char) : Except String UrlParts :=
  let u0 := removeUnsafe (lstripControl url)
  let sr := splitScheme u0
  let nl := splitNetloc sr.2
  if ('[' ∈ nl.1 ∧ ']' ∉ nl.1) ∨ (']' ∈ nl.1 ∧ '[' ∉ nl.1) then
    .error "Invalid IPv6 URL"
  else
    let u2 := (breakAt '#' nl.2).1
    let pq := breakAt '?' u2
    let path := if sr.1 ∈ uses_params then splitParams pq.1 else pq.1
    .ok { netloc := nl.1, path := path, query := pq.2.getD [] }

/-- Hex digit of Python's `unquote` (`_hextobyte` accepts both cases). -/
def isHexChar (c : Char) : Bool :=
  c.isDigit || ('a' ≤ c && c ≤ 'f') || ('A' ≤ c && c ≤ 'F')

/-- Numeric value of a hex digit. -/
def hexVal (c : Char) : Nat :=
  if c.isDigit then c.toNat - 48
  else if 'a' ≤ c && c ≤ 'f' then c.toNat - 87
  else c.toNat - 55

/-- The character a two-hex-digit percent escape decodes to.  (Python
decodes the byte sequence as UTF-8 with `errors="replace"`; bytes below
0x80 decode to themselves and higher bytes only ever produce characters
outside the identifier class, so a byte-per-character model is
observationally equivalent for this program.) -/
def hexChar (a b : Char) : Char := Char.ofNat (16 * hexVal a + hexVal b)

/-- Python `urllib.parse.unquote`: decode `%XX` escapes, leaving invalid
escapes untouched. -/
def percentDecode : List Char → List Char
  | x :: a :: b :: rest =>
    if x == '%' && isHexChar a && isHexChar b then hexChar a b :: percentDecode rest
    else x :: percentDecode (a :: b :: rest)
  | x :: xs => x :: percentDecode xs
  | [] => []

/-- The `.replace(chr 43, chr 32)` step of `parse_qsl` (plus to space). -/
def plusToSpace (l : List Char) : List Char :=
  l.map (fun c => if c == '+' then ' ' else c)

/-- `unquote` after plus-to-space, as applied by `parse_qsl` to each
field name and value. -/
def unquotePlus (l : List Char) : List Char := percentDecode (plusToSpace l)

/-- Python `urllib.parse.parse_qs` with default arguments: split the query
on `&`, skip empty chunks, skip chunks without `=` and chunks with an
empty value (`keep_blank_values=False`), and unquote names and values. -/
def parseQsPairs (q : List Char) : List (List Char × List Char) :=
  (splitOnChar '&' q).filterMap (fun chunk =>
    if chunk.isEmpty then none
    else
      match breakAt '=' chunk with
      | (_, none) => none
      | (name, some value) =>
        if value.isEmpty then none
        else some (unquotePlus name, unquotePlus value))

/-- `parse_qs(query).get(chr 118, [empty])[0]`: the first value of the `v`
parameter, or the empty string. -/
def queryV (q : List Char) : List Char :=
  match (parseQsPairs q).find? (fun pr => pr.1 == ['v']) with
  | some pr => pr.2
  | none => []

namespace DS

/-- The candidate of the short-link branch:
`parsed.path.strip(chr 47).split(chr 47)[0]`. -/
def ytbeCandidate (p : UrlParts) : List Char :=
  (splitOnChar '/' (pystrip '/' p.path)).headD []

/-- `[part for part in parsed.path.split(chr 47) if part]`. -/
def pathParts (p : UrlParts) : List (List Char) :=
  (splitOnChar '/' p.path).filter (fun s => !s.isEmpty)

/-- The `ValueError` message of src/download_subtitles.py. -/
def errorMessage : String :=
  "Could not detect a valid YouTube video id from the provided URL."

/-- The body of `extract_video_id` of src/download_subtitles.py after the
`urlparse` call: short-link first path segment, then the `v` query
parameter, then the second path segment after `watch` / `live` /
`shorts`, then a raw substring search over the original URL; `ValueError`
(as `Except.error`) when all fail. -/
def extract_from (parsed : UrlParts) (url : List Char) : Except String (List Char) :=
  if ( "youtu.be".data).isSuffixOf parsed.netloc && fullmatchId (ytbeCandidate parsed) then
    .ok (ytbeCandidate parsed)
  else
    let query_id := queryV parsed.query
    if fullmatchId query_id then .ok query_id
    else
      let parts := pathParts parsed
      if decide (2 ≤ parts.length) &&
          (parts.headD [] == "watch".data || parts.headD [] == "live".data ||
            parts.headD [] == "shorts".data) &&
          fullmatchId (parts.getD 1 []) then
        .ok (parts.getD 1 [])
      else
        match searchId url with
        | some m => .ok m
        | none => .error errorMessage

/-- src/download_subtitles.py, `extract_video_id`: parse the URL (a
`ValueError` raised by `urlparse` propagates), then run `extract_from`. -/
def extract_video_id (url : List Char) : Except String (List Char) :=
  match urlparse url with
  | .error m => .error m
  | .ok parsed => extract_from parsed url

end DS

/-- One alternative of the anchored pattern of src/get_transcript.py: if
the string starts with one of the four literal alternatives, return what
follows it.  The alternatives are pairwise incompatible at any single
position, so first-alternative-wins equals regex alternation here. -/
def gtAltRest (l : List Char) : Option (List Char) :=
  if ( "youtu.be/".data).isPrefixOf l then some (l.drop 9)
  else if ( "youtube.com/watch?v=".data).isPrefixOf l then some (l.drop 20)
  else if ( "youtube.com/live/".data).isPrefixOf l then some (l.drop 17)
  else if ( "youtube.com/shorts/".data).isPrefixOf l then some (l.drop 19)
  else none

/-- `re.search` of the anchored pattern of src/get_transcript.py: leftmost
position where an alternative matches and is followed by eleven identifier
characters; returns capture group 1. -/
def gtRegexSearch : List Char → Option (List Char)
  | [] => none
  | x :: xs =>
    match gtAltRest (x :: xs) with
    | some rest =>
      if fullmatchId (rest.take 11) then some (rest.take 11) else gtRegexSearch xs
    | none => gtRegexSearch xs

namespace GT

/-- The `ValueError` message of src/get_transcript.py. -/
def errorMessage : String := "無法從提供的連結中抓取到有效的 video_id，請確認 URL 格式。"

/-- The body of `extract_video_id` of src/get_transcript.py after the
`urlparse` call: the `v` query parameter first, then the short-link first
path segment, then the second path segment after `live` / `shorts` (no
`watch`), then the anchored regex search over the original URL;
`ValueError` (as `Except.error`) when all fail. -/
def extract_from (parsed : UrlParts) (url : List Char) : Except String (List Char) :=
  let vid := queryV parsed.query
  if fullmatchId vid then .ok vid
  else
    let parts := (splitOnChar '/' parsed.path).filter (fun s => !s.isEmpty)
    if ( "youtu.be".data).isSuffixOf parsed.netloc && !parts.isEmpty &&
        fullmatchId (parts.headD []) then
      .ok (parts.headD [])
    else if decide (2 ≤ parts.length) &&
        (parts.headD [] == "live".data || parts.headD [] == "shorts".data) &&
        fullmatchId (parts.getD 1 []) then
      .ok (parts.getD 1 [])
    else
      match gtRegexSearch url with
      | some m => .ok m
      | none => .error errorMessage

/-- src/get_transcript.py, `extract_video_id`: parse the URL (a
`ValueError` raised by `urlparse` propagates), then run `extract_from`. -/
def extract_video_id (url : List Char) : Except String (List Char) :=
  match urlparse url with
  | .error m => .error m
  | .ok parsed => extract_from parsed url

end GT

/-- The try-block of `main` in src/download_subtitles.py: extract the id
(`ValueError` becomes `invalidURL`), list the transcripts (the listing
outcome for the extracted id is passed in), then select and fetch. -/
def run_main {σ : Type} (url : List Char) (listing : Except Err (List Transcript))
    (c : Collaborator σ) (languages : Option (List String))
    (translate_to : Option String) (preserve_formatting : Bool) :
    Except Err (σ × String × List String) :=
  match DS.extract_video_id url with
  | .error m => .error (.invalidURL m)
  | .ok _vid =>
    match listing with
    | .error e => .error e
    | .ok transcripts =>
      fetch_transcript_data c transcripts languages translate_to preserve_formatting

/-- `m` occurs as a contiguous segment of `l`. -/
def SubSeg (m l : List Char) : Prop := ∃ a b, l = a ++ m ++ b

/-- Lexicographic order on strings, reflexively closed: code-point
comparison as Python compares strings. -/
def lexLe (a b : String) : Prop := a.data = b.data ∨ List.Lex (· < ·) a.data b.data

/-- A collaborator over a listing whose fetch always fails with a
collaborator-level (non-selection) error. -/
def failingFetchCollab (ts : List Transcript) (m : String) : Collaborator String :=
  { find_transcript := findExact ts
    translate := translateModel
    fetch := fun _ _ => .error (.other m) }

theorem charsLe_total (x : List Char) : ∀ y : List Char,
    charsLe x y = true ∨ charsLe y x = true := by
  induction x with
  | nil => intro y; left; rfl
  | cons a as ih =>
    intro y
    cases y with
    | nil => right; rfl
    | cons b bs =>
      by_cases hab : a = b
      · subst hab
        rcases ih bs with h | h
        · left; simpa [charsLe] using h
        · right; simpa [charsLe] using h
      · rcases lt_trichotomy a b with h | h | h
        · left; simp [charsLe, hab, h]
        · exact absurd h hab
        · right; simp [charsLe, Ne.symm hab, h]

theorem charsLe_trans (x : List Char) : ∀ y z : List Char,
    charsLe x y = true → charsLe y z = true → charsLe x z = true := by
  induction x with
  | nil => intro y z _ _; rfl
  | cons a as ih =>
    intro y z h1 h2
    cases y with
    | nil => simp [charsLe] at h1
    | cons b bs =>
      cases z with
      | nil => simp [charsLe] at h2
      | cons c cs =>
        simp only [charsLe] at h1 h2 ⊢
        by_cases hab : a = b
        · subst hab
          rw [if_pos rfl] at h1
          by_cases hbc : a = c
          · subst hbc; rw [if_pos rfl] at h2 ⊢; exact ih bs cs h1 h2
          · rw [if_neg hbc] at h2 ⊢; exact h2
        · rw [if_neg hab] at h1
          have hab' : a < b := of_decide_eq_true h1
          by_cases hbc : b = c
          · subst hbc; rw [if_neg hab]; exact h1
          · rw [if_neg hbc] at h2
            have hbc' : b < c := of_decide_eq_true h2
            have hac' : a < c := lt_trans hab' hbc'
            rw [if_neg (ne_of_lt hac')]
            exact decide_eq_true hac'

theorem charsLe_iff_lex (x : List Char) : ∀ y : List Char,
    charsLe x y = true ↔ (x = y ∨ List.Lex (· < ·) x y) := by
  induction x with
  | nil =>
    intro y
    cases y with
    | nil => simp [charsLe]
    | cons b bs => simp [charsLe]; exact List.Lex.nil
  | cons a as ih =>
    intro y
    cases y with
    | nil =>
      simp only [charsLe]
      constructor
      · intro h; exact absurd h (by simp)
      · rintro (h | h)
        · exact absurd h (by simp)
        · cases h
    | cons b bs =>
      by_cases hab : a = b
      · subst hab
        have hstep : charsLe (a :: as) (a :: bs) = charsLe as bs := by simp [charsLe]
        rw [hstep, ih bs]
        constructor
        · rintro (h | h)
          · left; rw [h]
          · right; exact List.Lex.cons h
        · rintro (h | h)
          · left; injection h
          · right
            cases h with
            | cons h => exact h
            | rel h => exact absurd h (lt_irrefl a)
      · simp only [charsLe, if_neg hab]
        constructor
        · intro h
          right
          exact List.Lex.rel (of_decide_eq_true h)
        · rintro (h | h)
          · injection h with h1 h2; exact absurd h1 hab
          · cases h with
            | cons h => exact absurd rfl hab
            | rel h => exact decide_eq_true h

theorem strLeB_iff_lexLe (a b : String) : strLeB a b = true ↔ lexLe a b := by
  simpa [strLeB, lexLe, String.ext_iff] using charsLe_iff_lex a.data b.data

theorem findExact_mem (ts : List Transcript) : ∀ (ls : List String) (t : Transcript),
    findExact ts ls = .ok t → t ∈ ts := by
  intro ls
  induction ls with
  | nil => intro t h; simp [findExact] at h
  | cons l rest ih =>
    intro t h
    simp only [findExact] at h
    cases hf : ts.find? (fun tr => tr.language_code == l) with
    | some t' =>
      rw [hf] at h
      injection h with h2
      subst h2
      exact List.mem_of_find?_eq_some hf
    | none =>
      rw [hf] at h
      exact ih t h

theorem pick_ok_find {σ : Type} (c : Collaborator σ) (langs : Option (List String))
    (fb : List String) (t : Transcript) :
    pick_transcript c langs fb = .ok t →
    c.find_transcript (langs.getD []) = .ok t ∨ c.find_transcript fb = .ok t := by
  intro h
  simp only [pick_transcript] at h
  by_cases hl : listTruthy langs
  · rw [if_pos hl] at h
    cases hf : c.find_transcript (langs.getD []) with
    | ok t' =>
      rw [hf] at h
      dsimp only at h
      left
      exact h
    | error e =>
      rw [hf] at h
      cases e with
      | noTranscriptFound m =>
        dsimp only at h
        right
        by_cases hfb : fb.isEmpty
        · rw [if_pos hfb] at h; exact Except.noConfusion h
        · rw [if_neg hfb] at h; exact h
      | invalidURL m => dsimp only at h; exact Except.noConfusion h
      | transcriptsDisabled => dsimp only at h; exact Except.noConfusion h
      | videoUnavailable => dsimp only at h; exact Except.noConfusion h
      | other m => dsimp only at h; exact Except.noConfusion h
  · rw [if_neg hl] at h
    right
    by_cases hfb : fb.isEmpty
    · rw [if_pos hfb] at h; exact Except.noConfusion h
    · rw [if_neg hfb] at h; exact h

/-- C1: for a non-empty preference list, `pick_transcript` first requests a
match against the preferences; a success is returned directly, a
`NoTranscriptFound` outcome alone never fails the selection — with a
non-empty fallback list the result is exactly the fallback request — and
only that outcome triggers the fallback: any other error from the
preference request propagates unchanged, with no fallback request.
Concretely, with preferences en, fr over a listing exposing only fr, de
(exact-match collaborator), selection succeeds with fr chosen. -/
theorem pick_transcript_preference_then_fallback :
    (∀ (σ : Type) (c : Collaborator σ) (ls fb : List String),
      ls ≠ [] →
      (∀ t, c.find_transcript ls = .ok t → pick_transcript c (some ls) fb = .ok t) ∧
      (∀ m, c.find_transcript ls = .error (.noTranscriptFound m) → fb ≠ [] →
        pick_transcript c (some ls) fb = c.find_transcript fb) ∧
      (∀ e, c.find_transcript ls = .error e → (∀ m, e ≠ Err.noTranscriptFound m) →
        pick_transcript c (some ls) fb = .error e)) ∧
    (pick_transcript (specCollab [⟨ "fr", false, []⟩, ⟨ "de", false, []⟩])
        (some [ "en", "fr"]) [ "fr", "de"] = .ok ⟨ "fr", false, []⟩ ∧
      (⟨ "fr", false, []⟩ : Transcript).language_code = "fr") := by
  constructor
  · intro σ c ls fb hls
    have hTrue : listTruthy (some ls) = true := by
      cases ls with
      | nil => exact absurd rfl hls
      | cons a l => rfl
    refine ⟨?_, ?_, ?_⟩
    · intro t hfind
      simp [pick_transcript, hTrue, hfind]
    · intro m hfind hfb
      have hfbe : fb.isEmpty = false := by
        cases fb with
        | nil => exact absurd rfl hfb
        | cons a l => rfl
      simp [pick_transcript, hTrue, hfind, hfbe]
    · intro e hfind hne
      cases e with
      | noTranscriptFound m => exact absurd rfl (hne m)
      | invalidURL m => simp [pick_transcript, hTrue, hfind]
      | transcriptsDisabled => simp [pick_transcript, hTrue, hfind]
      | videoUnavailable => simp [pick_transcript, hTrue, hfind]
      | other m => simp [pick_transcript, hTrue, hfind]
  · exact ⟨by decide, rfl⟩

theorem pick_transcript_preference_then_fallback_witness :
    pick_transcript (specCollab [⟨ "fr", false, []⟩]) (some [ "en"]) [ "fr"] =
      (specCollab [⟨ "fr", false, []⟩]).find_transcript [ "fr"] :=
  (pick_transcript_preference_then_fallback.1 String (specCollab [⟨ "fr", false, []⟩])
      [ "en"] [ "fr"] (by decide)).2.1
    "No transcripts were found for any of the requested language codes."
    (by decide) (by decide)

/-- C4: a successful listing with zero transcripts fails with
`NoTranscriptFound` before anything else runs: the result is this error
for every collaborator whatsoever, so no find / translate / fetch call
can influence it. -/
theorem fetch_empty_listing_noTranscript :
    ∀ (σ : Type) (c : Collaborator σ) (langs : Option (List String))
      (t_to : Option String) (pres : Bool),
      fetch_transcript_data c [] langs t_to pres =
        .error (.noTranscriptFound "This video does not expose any transcripts.") :=
  fun _ _ _ _ _ => rfl

/-- C9: under the caller's precondition (a non-empty listing, as enforced
by the guard in `fetch_transcript_data`), the fallback-codes argument
`collect_available_languages ts` is non-empty, and `pick_transcript`
coincides with the variant whose empty-fallback error branch is deleted:
that branch is unreachable from this call site. -/
theorem pick_guard_dead_code (ts : List Transcript) (hts : ts ≠ []) :
    collect_available_languages ts ≠ [] ∧
    ∀ (σ : Type) (c : Collaborator σ) (langs : Option (List String)),
      pick_transcript c langs (collect_available_languages ts) =
        pick_transcript_unguarded c langs (collect_available_languages ts) := by
  have hne : collect_available_languages ts ≠ [] := by
    cases ts with
    | nil => exact absurd rfl hts
    | cons a l => simp [collect_available_languages]
  refine ⟨hne, ?_⟩
  intro σ c langs
  have hfbe : (collect_available_languages ts).isEmpty = false := by
    cases hcc : collect_available_languages ts with
    | nil => exact absurd hcc hne
    | cons a l => rfl
  simp only [pick_transcript, pick_transcript_unguarded, hfbe]
  simp

theorem pick_guard_dead_code_witness :
    collect_available_languages [⟨ "en", false, []⟩] ≠ [] ∧
    pick_transcript (specCollab [⟨ "en", false, []⟩]) none
        (collect_available_languages [⟨ "en", false, []⟩]) =
      pick_transcript_unguarded (specCollab [⟨ "en", false, []⟩]) none
        (collect_available_languages [⟨ "en", false, []⟩]) :=
  ⟨(pick_guard_dead_code [⟨ "en", false, []⟩] (by decide)).1,
    (pick_guard_dead_code [⟨ "en", false, []⟩] (by decide)).2 String
      (specCollab [⟨ "en", false, []⟩]) none⟩

/-- C2: on a successful selection (spec-modelled exact-match collaborator),
the returned language code is the requested translation target when one
was set, and otherwise one of the codes listed as available. -/
theorem fetch_result_language_invariant (ts : List Transcript)
    (langs : Option (List String)) (t_to : Option String) (pres : Bool)
    (fetched lang : String) (codes : List String)
    (h : fetch_transcript_data (specCollab ts) ts langs t_to pres =
      .ok (fetched, lang, codes)) :
    (strTruthy t_to = true → t_to = some lang) ∧
    (strTruthy t_to = false →
      lang ∈ codes ∧ codes = collect_available_languages ts) := by
  simp only [fetch_transcript_data] at h
  by_cases hts : ts.isEmpty
  · rw [if_pos hts] at h; exact Except.noConfusion h
  · rw [if_neg hts] at h
    cases hp : pick_transcript (specCollab ts) langs (collect_available_languages ts) with
    | error e => rw [hp] at h; exact Except.noConfusion h
    | ok t0 =>
      rw [hp] at h
      dsimp only at h
      have hmem : t0 ∈ ts := by
        rcases pick_ok_find (specCollab ts) langs (collect_available_languages ts) t0 hp with
          hf | hf
        · exact findExact_mem ts (langs.getD []) t0 hf
        · exact findExact_mem ts (collect_available_languages ts) t0 hf
      by_cases htr : strTruthy t_to
      · rw [if_pos htr] at h
        by_cases h1 : !t0.is_translatable
        · rw [if_pos h1] at h; exact Except.noConfusion h
        · rw [if_neg h1] at h
          by_cases h2 : !t0.translation_languages.isEmpty &&
              !(t0.translation_languages.contains (t_to.getD ""))
          · rw [if_pos h2] at h; exact Except.noConfusion h
          · rw [if_neg h2] at h
            dsimp only [specCollab, translateModel] at h
            injection h with h3
            injection h3 with h4 h5
            injection h5 with h6 h7
            refine ⟨fun _ => ?_, fun hc => absurd htr (by rw [hc]; simp)⟩
            cases t_to with
            | none => exact absurd htr (by simp [strTruthy])
            | some s => rw [← h6]; rfl
      · rw [if_neg htr] at h
        dsimp only [specCollab] at h
        injection h with h3
        injection h3 with h4 h5
        injection h5 with h6 h7
        refine ⟨fun hc => absurd hc htr, fun _ => ?_⟩
        subst h6
        subst h7
        exact ⟨List.mem_map_of_mem _ hmem, rfl⟩

theorem fetch_result_language_invariant_witness :
    (strTruthy (some "fr") = true → (some "fr" : Option String) = some "fr") ∧
    (strTruthy (some "fr") = false →
      "fr" ∈ [ "en"] ∧ [ "en"] = collect_available_languages [⟨ "en", true, [ "fr"]⟩]) :=
  fetch_result_language_invariant [⟨ "en", true, [ "fr"]⟩] none (some "fr") false
    ("payload:" ++ "fr") "fr" [ "en"] (by decide)

/-- C3: with a translation target set, the chosen transcript being
untranslatable fails with `NoTranscriptFound`; a non-empty advertised
target set not containing the target fails with `NoTranscriptFound` whose
message enumerates the targets sorted lexicographically ascending (the
enumerated list is sorted and holds exactly the advertised codes);
otherwise the transcript is replaced by its translated form before the
fetch. -/
theorem fetch_translation_cases (σ : Type) (c : Collaborator σ) (ts : List Transcript)
    (langs : Option (List String)) (s : String) (pres : Bool) (t0 : Transcript)
    (hts : ts ≠ []) (hs : s ≠ "")
    (hp : pick_transcript c langs (collect_available_languages ts) = .ok t0) :
    (t0.is_translatable = false →
      fetch_transcript_data c ts langs (some s) pres =
        .error (.noTranscriptFound "This transcript cannot be translated.")) ∧
    (t0.is_translatable = true → t0.translation_languages ≠ [] →
      s ∉ t0.translation_languages →
      fetch_transcript_data c ts langs (some s) pres =
        .error (.noTranscriptFound (translationErrorMessage s t0))) ∧
    (t0.is_translatable = true →
      (t0.translation_languages = [] ∨ s ∈ t0.translation_languages) →
      fetch_transcript_data c ts langs (some s) pres =
        (c.fetch (c.translate t0 s) pres).map
          (fun f => (f, (c.translate t0 s).language_code,
            collect_available_languages ts))) ∧
    List.Sorted lexLe (sortedTargets t0) ∧
    (∀ x, x ∈ sortedTargets t0 ↔ x ∈ t0.translation_languages) := by
  have htse : ts.isEmpty = false := by
    cases ts with
    | nil => exact absurd rfl hts
    | cons a l => rfl
  have hse : s.isEmpty = false := by
    cases he : s.isEmpty with
    | true => exact absurd ((String.isEmpty_iff s).mp he) hs
    | false => rfl
  have htr : strTruthy (some s) = true := by simp [strTruthy, hse]
  refine ⟨?_, ?_, ?_, ?_, ?_⟩
  · intro h1
    simp only [fetch_transcript_data, htse, hp]
    simp [htr, h1]
  · intro h1 h2 h3
    have h2e : t0.translation_languages.isEmpty = false := by
      cases hc : t0.translation_languages with
      | nil => exact absurd hc h2
      | cons a l => rfl
    have h3e : t0.translation_languages.contains s = false := by
      cases hc : t0.translation_languages.contains s with
      | true => exact absurd (List.elem_iff.mp hc) h3
      | false => rfl
    simp only [fetch_transcript_data, htse, hp]
    simp [htr, h1, h2e, h3e, h3]
  · intro h1 h2
    have hnot : ¬(¬t0.translation_languages = [] ∧ s ∉ t0.translation_languages) := by
      rcases h2 with h2 | h2
      · exact fun hcontra => hcontra.1 h2
      · exact fun hcontra => hcontra.2 h2
    simp only [fetch_transcript_data, htse, hp]
    simp [htr, h1, hnot]
    cases hf : c.fetch (c.translate t0 s) pres with
    | ok f => simp [Except.map, hf]
    | error e => simp [Except.map, hf]
  · haveI hTot : IsTotal String (fun a b => strLeB a b = true) :=
      ⟨fun a b => charsLe_total a.data b.data⟩
    haveI hTr : IsTrans String (fun a b => strLeB a b = true) :=
      ⟨fun a b cc => charsLe_trans a.data b.data cc.data⟩
    have hsorted := List.sorted_insertionSort (fun a b => strLeB a b = true)
      t0.translation_languages.dedup
    exact hsorted.imp (fun hab => (strLeB_iff_lexLe _ _).mp hab)
  · intro x
    simp [sortedTargets]

theorem fetch_translation_cases_witness :
    fetch_transcript_data (specCollab [⟨ "en", true, [ "fr", "de"]⟩])
        [⟨ "en", true, [ "fr", "de"]⟩] none (some "zz") false =
      .error (.noTranscriptFound
        (translationErrorMessage "zz" ⟨ "en", true, [ "fr", "de"]⟩)) :=
  (fetch_translation_cases String (specCollab [⟨ "en", true, [ "fr", "de"]⟩])
      [⟨ "en", true, [ "fr", "de"]⟩] none "zz" false ⟨ "en", true, [ "fr", "de"]⟩
      (by decide) (by decide) (by decide)).2.1 rfl (by decide) (by decide)

/-- C8: the exit code is 0 on success, 1 on `ValueError` (invalid URL),
2 on `TranscriptsDisabled`, 3 on `NoTranscriptFound`, 4 on
`VideoUnavailable`, 5 on any other error; an extraction failure exits 1
through the pipeline, and a collaborator-level fetch failure propagates
unchanged as the catch-all error (exit 5), never reclassified as
`NoTranscriptFound`. -/
theorem main_exit_code_mapping :
    (∀ (α : Type) (x : α), mainExitCode (.ok x) = 0) ∧
    (∀ (α : Type) (m : String), @mainExitCode α (.error (.invalidURL m)) = 1) ∧
    (∀ (α : Type), @mainExitCode α (.error .transcriptsDisabled) = 2) ∧
    (∀ (α : Type) (m : String), @mainExitCode α (.error (.noTranscriptFound m)) = 3) ∧
    (∀ (α : Type), @mainExitCode α (.error .videoUnavailable) = 4) ∧
    (∀ (α : Type) (m : String), @mainExitCode α (.error (.other m)) = 5) ∧
    (∀ (σ : Type) (url : List Char) (listing : Except Err (List Transcript))
      (c : Collaborator σ) (langs : Option (List String)) (t_to : Option String)
      (pres : Bool) (m : String),
      DS.extract_video_id url = .error m →
      mainExitCode (run_main url listing c langs t_to pres) = 1) ∧
    (∀ (σ : Type) (url : List Char) (c : Collaborator σ) (ts : List Transcript)
      (langs : Option (List String)) (t_to : Option String) (pres : Bool)
      (v : List Char) (t0 : Transcript) (m : String),
      DS.extract_video_id url = .ok v →
      ts ≠ [] →
      strTruthy t_to = false →
      pick_transcript c langs (collect_available_languages ts) = .ok t0 →
      c.fetch t0 pres = .error (.other m) →
      run_main url (.ok ts) c langs t_to pres = .error (.other m) ∧
      mainExitCode (run_main url (.ok ts) c langs t_to pres) = 5) := by
  refine ⟨fun α x => rfl, fun α m => rfl, fun α => rfl, fun α m => rfl, fun α => rfl,
    fun α m => rfl, ?_, ?_⟩
  · intro σ url listing c langs t_to pres m hext
    simp [run_main, hext, mainExitCode]
  · intro σ url c ts langs t_to pres v t0 m hext hts htr hp hfetch
    have htse : ts.isEmpty = false := by
      cases ts with
      | nil => exact absurd rfl hts
      | cons a l => rfl
    have hrun : run_main url (.ok ts) c langs t_to pres = .error (.other m) := by
      simp only [run_main, hext]
      simp only [fetch_transcript_data, htse, hp]
      simp [htr, hfetch]
    exact ⟨hrun, by rw [hrun]; rfl⟩

theorem main_exit_code_mapping_witness :
    run_main ( "https://youtu.be/dQw4w9WgXcQ".data)
        (.ok [⟨ "en", false, []⟩]) (failingFetchCollab [⟨ "en", false, []⟩] "boom")
        none none false = .error (.other "boom") ∧
    mainExitCode (run_main ( "https://youtu.be/dQw4w9WgXcQ".data)
        (.ok [⟨ "en", false, []⟩]) (failingFetchCollab [⟨ "en", false, []⟩] "boom")
        none none false) = 5 :=
  main_exit_code_mapping.2.2.2.2.2.2.2 String ( "https://youtu.be/dQw4w9WgXcQ".data)
    (failingFetchCollab [⟨ "en", false, []⟩] "boom") [⟨ "en", false, []⟩]
    none none false ( "dQw4w9WgXcQ".data) ⟨ "en", false, []⟩ "boom"
    (by decide) (by decide) rfl (by decide) rfl

theorem beq_false_of_not_mem {c x : Char} {xs : List Char} (h : c ∉ x :: xs) :
    (x == c) = false := by
  cases hxc : x == c with
  | false => rfl
  | true => exact absurd (by rw [← beq_iff_eq.mp hxc]; exact List.mem_cons_self x xs) h

theorem breakAt_not_mem {c : Char} : ∀ {l : List Char}, c ∉ l → breakAt c l = (l, none) := by
  intro l
  induction l with
  | nil => intro _; rfl
  | cons x xs ih =>
    intro h
    simp [breakAt, beq_false_of_not_mem h, ih (fun hm => h (List.mem_cons_of_mem x hm))]

theorem breakAt_append (c : Char) : ∀ (a b : List Char),
    breakAt c (a ++ b) =
      match breakAt c a with
      | (f, some r) => (f, some (r ++ b))
      | (f, none) => (f ++ (breakAt c b).1, (breakAt c b).2) := by
  intro a b
  induction a with
  | nil => simp [breakAt]
  | cons x xs ih =>
    cases hx : x == c with
    | true => simp [breakAt, hx]
    | false =>
      simp only [List.cons_append, breakAt, hx, Bool.false_eq_true, if_false,
        List.append_eq]
      rw [ih]
      cases hb : breakAt c xs with
      | mk f o =>
        cases o with
        | some r => simp
        | none => simp

theorem splitOnChar_ne_nil (c : Char) : ∀ l : List Char, splitOnChar c l ≠ [] := by
  intro l
  induction l with
  | nil => simp [splitOnChar]
  | cons x xs ih =>
    simp only [splitOnChar]
    cases hs : splitOnChar c xs with
    | nil => simp
    | cons h t =>
      cases hx : x == c with
      | true => simp
      | false => simp

theorem splitOnChar_not_mem {c : Char} : ∀ {l : List Char}, c ∉ l → splitOnChar c l = [l] := by
  intro l
  induction l with
  | nil => intro _; rfl
  | cons x xs ih =>
    intro h
    simp only [splitOnChar, ih (fun hm => h (List.mem_cons_of_mem x hm)),
      beq_false_of_not_mem h]
    simp

theorem splitOnChar_sep (c : Char) : ∀ (x y : List Char),
    splitOnChar c (x ++ c :: y) = splitOnChar c x ++ splitOnChar c y := by
  intro x y
  induction x with
  | nil =>
    simp only [List.nil_append, splitOnChar]
    cases hs : splitOnChar c y with
    | nil => exact absurd hs (splitOnChar_ne_nil c y)
    | cons h t => simp
  | cons a as ih =>
    simp only [List.cons_append, splitOnChar, List.append_eq]
    rw [ih]
    cases hs : splitOnChar c as with
    | nil => exact absurd hs (splitOnChar_ne_nil c as)
    | cons h t =>
      cases ha : a == c with
      | true => simp
      | false => simp

theorem takeWhile_append_stop {p : Char → Bool} : ∀ {a : List Char}, a.all p = false →
    ∀ b, (a ++ b).takeWhile p = a.takeWhile p := by
  intro a
  induction a with
  | nil => intro h; exact absurd h (by simp)
  | cons x xs ih =>
    intro h b
    cases hx : p x with
    | false => simp [List.takeWhile_cons, hx]
    | true =>
      have hxs : xs.all p = false := by
        rw [List.all_cons, hx] at h
        simpa using h
      simp [List.takeWhile_cons, hx, ih hxs]

theorem dropWhile_append_stop {p : Char → Bool} : ∀ {a : List Char}, a.all p = false →
    ∀ b, (a ++ b).dropWhile p = a.dropWhile p ++ b := by
  intro a
  induction a with
  | nil => intro h; exact absurd h (by simp)
  | cons x xs ih =>
    intro h b
    cases hx : p x with
    | false => simp [List.dropWhile_cons, hx]
    | true =>
      have hxs : xs.all p = false := by
        rw [List.all_cons, hx] at h
        simpa using h
      simp [List.dropWhile_cons, hx, ih hxs]

theorem dropWhile_none {p : Char → Bool} {l : List Char}
    (h : ∀ x ∈ l, p x = false) : l.dropWhile p = l := by
  cases l with
  | nil => rfl
  | cons x xs => simp [List.dropWhile_cons, h x (List.mem_cons_self x xs)]

theorem filter_self {p : Char → Bool} {l : List Char}
    (h : ∀ x ∈ l, p x = true) : l.filter p = l := by
  induction l with
  | nil => rfl
  | cons x xs ih =>
    simp [List.filter_cons, h x (List.mem_cons_self x xs),
      ih (fun y hy => h y (List.mem_cons_of_mem x hy))]

theorem plusToSpace_not_mem {l : List Char} (h : '+' ∉ l) : plusToSpace l = l := by
  induction l with
  | nil => rfl
  | cons x xs ih =>
    have hx : ¬ x = '+' := fun he => h (by rw [← he]; exact List.mem_cons_self x xs)
    have ih2 := ih (fun hm => h (List.mem_cons_of_mem x hm))
    simp [plusToSpace] at ih2 ⊢
    exact ⟨fun he => absurd he hx, ih2⟩

theorem percentDecode_not_mem_aux : ∀ (n : Nat) (l : List Char), l.length ≤ n →
    '%' ∉ l → percentDecode l = l := by
  intro n
  induction n with
  | zero =>
    intro l hl _
    cases l with
    | nil => rfl
    | cons x xs => simp at hl
  | succ n ih =>
    intro l hl h
    cases l with
    | nil => rfl
    | cons x xs =>
      have hx : (x == '%') = false := beq_false_of_not_mem h
      cases xs with
      | nil => simp [percentDecode]
      | cons a rest =>
        cases rest with
        | nil => simp [percentDecode]
        | cons b rest2 =>
          have hcond : (x == '%' && isHexChar a && isHexChar b) = false := by
            simp [hx]
          simp only [percentDecode, hcond, Bool.false_eq_true, if_false, List.cons.injEq,
            true_and]
          have hlen : (a :: b :: rest2).length ≤ n := by
            simp only [List.length_cons] at hl ⊢
            omega
          exact ih (a :: b :: rest2) hlen (fun hm => h (List.mem_cons_of_mem x hm))

theorem percentDecode_not_mem {l : List Char} (h : '%' ∉ l) : percentDecode l = l :=
  percentDecode_not_mem_aux l.length l le_rfl h

theorem not_mem_of_idChars {l : List Char} (hall : l.all isIdChar = true) {d : Char}
    (hd : isIdChar d = false) : d ∉ l := by
  intro hm
  have := List.all_eq_true.mp hall d hm
  rw [hd] at this
  exact Bool.noConfusion this

theorem idChar_not_unsafe {c : Char} (h : isIdChar c = true) : (!isUnsafeUrlChar c) = true := by
  cases hu : isUnsafeUrlChar c with
  | false => rfl
  | true =>
    have hc : (c = '\t' ∨ c = '\r') ∨ c = '\n' := by simpa [isUnsafeUrlChar] using hu
    rcases hc with (hc | hc) | hc <;> subst hc <;> exact absurd h (by decide)

theorem notMemAppend {d : Char} {a b : List Char} (ha : d ∉ a) (hb : d ∉ b) :
    d ∉ a ++ b := by
  intro hm
  rcases List.mem_append.mp hm with hm | hm
  · exact ha hm
  · exact hb hm

theorem splitNetloc_cons (rest : List Char) :
    splitNetloc ('/' :: '/' :: rest) =
      (rest.takeWhile (fun c => !netlocStop c), rest.dropWhile (fun c => !netlocStop c)) := rfl

theorem urlparse_watch (id : List Char) (hall : id.all isIdChar = true) :
    urlparse ( "https://www.youtube.com/watch?v=".data ++ id) =
      .ok ⟨ "www.youtube.com".data, "/watch".data, "v=".data ++ id⟩ := by
  have hmem : ∀ d : Char, isIdChar d = false → d ∉ id := fun d hd =>
    not_mem_of_idChars hall hd
  have h0 : lstripControl ( "https://www.youtube.com/watch?v=".data ++ id) =
      "https://www.youtube.com/watch?v=".data ++ id := by
    unfold lstripControl
    rw [dropWhile_append_stop (by decide)]
    rw [show ( "https://www.youtube.com/watch?v=".data).dropWhile c0OrSpace =
      "https://www.youtube.com/watch?v=".data from by decide]
  have h1 : removeUnsafe ( "https://www.youtube.com/watch?v=".data ++ id) =
      "https://www.youtube.com/watch?v=".data ++ id := by
    unfold removeUnsafe
    rw [List.filter_append]
    rw [show ( "https://www.youtube.com/watch?v=".data).filter (fun c => !isUnsafeUrlChar c) =
      "https://www.youtube.com/watch?v=".data from by decide]
    rw [filter_self (fun x hx => idChar_not_unsafe (List.all_eq_true.mp hall x hx))]
  have h2 : splitScheme ( "https://www.youtube.com/watch?v=".data ++ id) =
      ( "https".data, "//www.youtube.com/watch?v=".data ++ id) := by
    unfold splitScheme
    rw [breakAt_append]
    rw [show breakAt ':' ( "https://www.youtube.com/watch?v=".data) =
      ( "https".data, some ( "//www.youtube.com/watch?v=".data)) from by decide]
    dsimp only
    rw [if_pos (by decide)]
    rw [show ( "https".data).map Char.toLower = "https".data from by decide]
  have h3 : splitNetloc ( "//www.youtube.com/watch?v=".data ++ id) =
      ( "www.youtube.com".data, "/watch?v=".data ++ id) := by
    rw [show "//www.youtube.com/watch?v=".data =
      '/' :: '/' :: "www.youtube.com/watch?v=".data from by decide]
    rw [List.cons_append, List.cons_append, splitNetloc_cons]
    rw [takeWhile_append_stop (by decide), dropWhile_append_stop (by decide)]
    rw [show ( "www.youtube.com/watch?v=".data).takeWhile (fun c => !netlocStop c) =
      "www.youtube.com".data from by decide]
    rw [show ( "www.youtube.com/watch?v=".data).dropWhile (fun c => !netlocStop c) =
      "/watch?v=".data from by decide]
  have h4 : breakAt '#' ( "/watch?v=".data ++ id) = ( "/watch?v=".data ++ id, none) :=
    breakAt_not_mem (notMemAppend (by decide) (hmem '#' (by decide)))
  have h5 : breakAt '?' ( "/watch?v=".data ++ id) =
      ( "/watch".data, some ( "v=".data ++ id)) := by
    rw [breakAt_append]
    rw [show breakAt '?' ( "/watch?v=".data) = ( "/watch".data, some ( "v=".data)) from by decide]
  simp only [urlparse]
  rw [h0, h1, h2]
  dsimp only
  rw [h3]
  dsimp only
  rw [if_neg (by decide : ¬((('[' : Char) ∈ "www.youtube.com".data ∧
    (']' : Char) ∉ "www.youtube.com".data) ∨ ((']' : Char) ∈ "www.youtube.com".data ∧
    ('[' : Char) ∉ "www.youtube.com".data)))]
  rw [h4]
  dsimp only
  rw [h5]
  dsimp only
  rw [if_pos (by decide : ( "https".data) ∈ uses_params)]
  rw [show splitParams ( "/watch".data) = "/watch".data from by decide]
  rfl

theorem splitParams_not_mem {p : List Char} (h : ';' ∉ p) : splitParams p = p := by
  unfold splitParams
  rw [if_neg h]

theorem urlparse_youtube (id : List Char) (hall : id.all isIdChar = true) :
    urlparse ( "https://youtu.be/".data ++ id) =
      .ok ⟨ "youtu.be".data, '/' :: id, []⟩ := by
  have hmem : ∀ d : Char, isIdChar d = false → d ∉ id := fun d hd =>
    not_mem_of_idChars hall hd
  have h0 : lstripControl ( "https://youtu.be/".data ++ id) =
      "https://youtu.be/".data ++ id := by
    unfold lstripControl
    rw [dropWhile_append_stop (by decide)]
    rw [show ( "https://youtu.be/".data).dropWhile c0OrSpace =
      "https://youtu.be/".data from by decide]
  have h1 : removeUnsafe ( "https://youtu.be/".data ++ id) =
      "https://youtu.be/".data ++ id := by
    unfold removeUnsafe
    rw [List.filter_append]
    rw [show ( "https://youtu.be/".data).filter (fun c => !isUnsafeUrlChar c) =
      "https://youtu.be/".data from by decide]
    rw [filter_self (fun x hx => idChar_not_unsafe (List.all_eq_true.mp hall x hx))]
  have h2 : splitScheme ( "https://youtu.be/".data ++ id) =
      ( "https".data, "//youtu.be/".data ++ id) := by
    unfold splitScheme
    rw [breakAt_append]
    rw [show breakAt ':' ( "https://youtu.be/".data) =
      ( "https".data, some ( "//youtu.be/".data)) from by decide]
    dsimp only
    rw [if_pos (by decide)]
    rw [show ( "https".data).map Char.toLower = "https".data from by decide]
  have h3 : splitNetloc ( "//youtu.be/".data ++ id) =
      ( "youtu.be".data, '/' :: id) := by
    rw [show "//youtu.be/".data = '/' :: '/' :: "youtu.be/".data from by decide]
    rw [List.cons_append, List.cons_append, splitNetloc_cons]
    rw [takeWhile_append_stop (by decide), dropWhile_append_stop (by decide)]
    rw [show ( "youtu.be/".data).takeWhile (fun c => !netlocStop c) =
      "youtu.be".data from by decide]
    rw [show ( "youtu.be/".data).dropWhile (fun c => !netlocStop c) = ['/'] from by decide]
    rfl
  have h4 : breakAt '#' ('/' :: id) = ('/' :: id, none) := by
    apply breakAt_not_mem
    intro hm
    rcases List.mem_cons.mp hm with hm | hm
    · exact absurd hm (by decide)
    · exact hmem '#' (by decide) hm
  have h5 : breakAt '?' ('/' :: id) = ('/' :: id, none) := by
    apply breakAt_not_mem
    intro hm
    rcases List.mem_cons.mp hm with hm | hm
    · exact absurd hm (by decide)
    · exact hmem '?' (by decide) hm
  have h6 : splitParams ('/' :: id) = '/' :: id := by
    apply splitParams_not_mem
    intro hm
    rcases List.mem_cons.mp hm with hm | hm
    · exact absurd hm (by decide)
    · exact hmem ';' (by decide) hm
  simp only [urlparse]
  rw [h0, h1, h2]
  dsimp only
  rw [h3]
  dsimp only
  rw [if_neg (by decide : ¬((('[' : Char) ∈ "youtu.be".data ∧
    (']' : Char) ∉ "youtu.be".data) ∨ ((']' : Char) ∈ "youtu.be".data ∧
    ('[' : Char) ∉ "youtu.be".data)))]
  rw [h4]
  dsimp only
  rw [h5]
  dsimp only
  rw [if_pos (by decide : ( "https".data) ∈ uses_params)]
  rw [h6]
  rfl

theorem urlparse_shorts (id : List Char) (hall : id.all isIdChar = true) :
    urlparse ( "https://www.youtube.com/shorts/".data ++ id) =
      .ok ⟨ "www.youtube.com".data, "/shorts/".data ++ id, []⟩ := by
  have hmem : ∀ d : Char, isIdChar d = false → d ∉ id := fun d hd =>
    not_mem_of_idChars hall hd
  have h0 : lstripControl ( "https://www.youtube.com/shorts/".data ++ id) =
      "https://www.youtube.com/shorts/".data ++ id := by
    unfold lstripControl
    rw [dropWhile_append_stop (by decide)]
    rw [show ( "https://www.youtube.com/shorts/".data).dropWhile c0OrSpace =
      "https://www.youtube.com/shorts/".data from by decide]
  have h1 : removeUnsafe ( "https://www.youtube.com/shorts/".data ++ id) =
      "https://www.youtube.com/shorts/".data ++ id := by
    unfold removeUnsafe
    rw [List.filter_append]
    rw [show ( "https://www.youtube.com/shorts/".data).filter (fun c => !isUnsafeUrlChar c) =
      "https://www.youtube.com/shorts/".data from by decide]
    rw [filter_self (fun x hx => idChar_not_unsafe (List.all_eq_true.mp hall x hx))]
  have h2 : splitScheme ( "https://www.youtube.com/shorts/".data ++ id) =
      ( "https".data, "//www.youtube.com/shorts/".data ++ id) := by
    unfold splitScheme
    rw [breakAt_append]
    rw [show breakAt ':' ( "https://www.youtube.com/shorts/".data) =
      ( "https".data, some ( "//www.youtube.com/shorts/".data)) from by decide]
    dsimp only
    rw [if_pos (by decide)]
    rw [show ( "https".data).map Char.toLower = "https".data from by decide]
  have h3 : splitNetloc ( "//www.youtube.com/shorts/".data ++ id) =
      ( "www.youtube.com".data, "/shorts/".data ++ id) := by
    rw [show "//www.youtube.com/shorts/".data =
      '/' :: '/' :: "www.youtube.com/shorts/".data from by decide]
    rw [List.cons_append, List.cons_append, splitNetloc_cons]
    rw [takeWhile_append_stop (by decide), dropWhile_append_stop (by decide)]
    rw [show ( "www.youtube.com/shorts/".data).takeWhile (fun c => !netlocStop c) =
      "www.youtube.com".data from by decide]
    rw [show ( "www.youtube.com/shorts/".data).dropWhile (fun c => !netlocStop c) =
      "/shorts/".data from by decide]
  have h4 : breakAt '#' ( "/shorts/".data ++ id) = ( "/shorts/".data ++ id, none) :=
    breakAt_not_mem (notMemAppend (by decide) (hmem '#' (by decide)))
  have h5 : breakAt '?' ( "/shorts/".data ++ id) = ( "/shorts/".data ++ id, none) :=
    breakAt_not_mem (notMemAppend (by decide) (hmem '?' (by decide)))
  have h6 : splitParams ( "/shorts/".data ++ id) = "/shorts/".data ++ id :=
    splitParams_not_mem (notMemAppend (by decide) (hmem ';' (by decide)))
  simp only [urlparse]
  rw [h0, h1, h2]
  dsimp only
  rw [h3]
  dsimp only
  rw [if_neg (by decide : ¬((('[' : Char) ∈ "www.youtube.com".data ∧
    (']' : Char) ∉ "www.youtube.com".data) ∨ ((']' : Char) ∈ "www.youtube.com".data ∧
    ('[' : Char) ∉ "www.youtube.com".data)))]
  rw [h4]
  dsimp only
  rw [h5]
  dsimp only
  rw [if_pos (by decide : ( "https".data) ∈ uses_params)]
  rw [h6]
  rfl

theorem urlparse_live (id : List Char) (hall : id.all isIdChar = true) :
    urlparse ( "https://www.youtube.com/live/".data ++ id) =
      .ok ⟨ "www.youtube.com".data, "/live/".data ++ id, []⟩ := by
  have hmem : ∀ d : Char, isIdChar d = false → d ∉ id := fun d hd =>
    not_mem_of_idChars hall hd
  have h0 : lstripControl ( "https://www.youtube.com/live/".data ++ id) =
      "https://www.youtube.com/live/".data ++ id := by
    unfold lstripControl
    rw [dropWhile_append_stop (by decide)]
    rw [show ( "https://www.youtube.com/live/".data).dropWhile c0OrSpace =
      "https://www.youtube.com/live/".data from by decide]
  have h1 : removeUnsafe ( "https://www.youtube.com/live/".data ++ id) =
      "https://www.youtube.com/live/".data ++ id := by
    unfold removeUnsafe
    rw [List.filter_append]
    rw [show ( "https://www.youtube.com/live/".data).filter (fun c => !isUnsafeUrlChar c) =
      "https://www.youtube.com/live/".data from by decide]
    rw [filter_self (fun x hx => idChar_not_unsafe (List.all_eq_true.mp hall x hx))]
  have h2 : splitScheme ( "https://www.youtube.com/live/".data ++ id) =
      ( "https".data, "//www.youtube.com/live/".data ++ id) := by
    unfold splitScheme
    rw [breakAt_append]
    rw [show breakAt ':' ( "https://www.youtube.com/live/".data) =
      ( "https".data, some ( "//www.youtube.com/live/".data)) from by decide]
    dsimp only
    rw [if_pos (by decide)]
    rw [show ( "https".data).map Char.toLower = "https".data from by decide]
  have h3 : splitNetloc ( "//www.youtube.com/live/".data ++ id) =
      ( "www.youtube.com".data, "/live/".data ++ id) := by
    rw [show "//www.youtube.com/live/".data =
      '/' :: '/' :: "www.youtube.com/live/".data from by decide]
    rw [List.cons_append, List.cons_append, splitNetloc_cons]
    rw [takeWhile_append_stop (by decide), dropWhile_append_stop (by decide)]
    rw [show ( "www.youtube.com/live/".data).takeWhile (fun c => !netlocStop c) =
      "www.youtube.com".data from by decide]
    rw [show ( "www.youtube.com/live/".data).dropWhile (fun c => !netlocStop c) =
      "/live/".data from by decide]
  have h4 : breakAt '#' ( "/live/".data ++ id) = ( "/live/".data ++ id, none) :=
    breakAt_not_mem (notMemAppend (by decide) (hmem '#' (by decide)))
  have h5 : breakAt '?' ( "/live/".data ++ id) = ( "/live/".data ++ id, none) :=
    breakAt_not_mem (notMemAppend (by decide) (hmem '?' (by decide)))
  have h6 : splitParams ( "/live/".data ++ id) = "/live/".data ++ id :=
    splitParams_not_mem (notMemAppend (by decide) (hmem ';' (by decide)))
  simp only [urlparse]
  rw [h0, h1, h2]
  dsimp only
  rw [h3]
  dsimp only
  rw [if_neg (by decide : ¬((('[' : Char) ∈ "www.youtube.com".data ∧
    (']' : Char) ∉ "www.youtube.com".data) ∨ ((']' : Char) ∈ "www.youtube.com".data ∧
    ('[' : Char) ∉ "www.youtube.com".data)))]
  rw [h4]
  dsimp only
  rw [h5]
  dsimp only
  rw [if_pos (by decide : ( "https".data) ∈ uses_params)]
  rw [h6]
  rfl

theorem queryV_v_id (id : List Char) (hall : id.all isIdChar = true) (hne : id ≠ []) :
    queryV ( "v=".data ++ id) = id := by
  have hmem : ∀ d : Char, isIdChar d = false → d ∉ id := fun d hd =>
    not_mem_of_idChars hall hd
  have hand : '&' ∉ "v=".data ++ id := notMemAppend (by decide) (hmem '&' (by decide))
  have hchunk : "v=".data ++ id = 'v' :: '=' :: id := rfl
  have hbreak : breakAt '=' ('v' :: '=' :: id) = (['v'], some id) := by
    simp [breakAt]
  have hidE : id.isEmpty = false := by
    cases id with
    | nil => exact absurd rfl hne
    | cons a l => rfl
  have hUq : unquotePlus id = id := by
    unfold unquotePlus
    rw [plusToSpace_not_mem (hmem '+' (by decide)),
      percentDecode_not_mem (hmem '%' (by decide))]
  unfold queryV parseQsPairs
  rw [splitOnChar_not_mem hand, hchunk]
  simp +decide [List.filterMap_cons, hbreak, hidE, hUq, List.find?, hne,
    show unquotePlus ['v'] = ['v'] from by decide]

theorem ds_extract_from_ok {url : List Char} {p : UrlParts}
    (h : urlparse url = .ok p) :
    DS.extract_video_id url = DS.extract_from p url := by
  simp only [DS.extract_video_id, h]

theorem gt_extract_from_ok {url : List Char} {p : UrlParts}
    (h : urlparse url = .ok p) :
    GT.extract_video_id url = GT.extract_from p url := by
  simp only [GT.extract_video_id, h]

theorem extract_ds_watch (id : List Char) (hlen : id.length = 11)
    (hall : id.all isIdChar = true) :
    DS.extract_video_id ( "https://www.youtube.com/watch?v=".data ++ id) = .ok id := by
  have hne : id ≠ [] := by
    intro he
    rw [he] at hlen
    exact absurd hlen (by decide)
  have hfm : fullmatchId id = true := by simp [fullmatchId, hlen, hall]
  have hq : queryV ('v' :: '=' :: id) = id := queryV_v_id id hall hne
  rw [ds_extract_from_ok (urlparse_watch id hall)]
  simp +decide [DS.extract_from, DS.ytbeCandidate, DS.pathParts, hq, hfm]

theorem ytbeCandidate_slash_id (id : List Char) (hall : id.all isIdChar = true)
    (q : List Char) :
    DS.ytbeCandidate ⟨ "youtu.be".data, '/' :: id, q⟩ = id := by
  have hmem : ∀ d : Char, isIdChar d = false → d ∉ id := fun d hd =>
    not_mem_of_idChars hall hd
  have hpred : ∀ x ∈ id, (x == '/') = false := by
    intro x hx
    cases hc : x == '/' with
    | false => rfl
    | true =>
      exact absurd (List.all_eq_true.mp hall x hx) (by rw [beq_iff_eq.mp hc]; decide)
  unfold DS.ytbeCandidate
  dsimp only
  have hps : pystrip '/' ('/' :: id) = id := by
    unfold pystrip
    have h1 : List.dropWhile (fun x => x == '/') ('/' :: id) = id.dropWhile (fun x => x == '/') := by
      rw [List.dropWhile_cons]
      simp
    rw [h1, dropWhile_none hpred,
      dropWhile_none (fun x hx => hpred x (List.mem_reverse.mp hx)), List.reverse_reverse]
  rw [hps, splitOnChar_not_mem (hmem '/' (by decide))]
  rfl

theorem extract_ds_youtube (id : List Char) (hlen : id.length = 11)
    (hall : id.all isIdChar = true) :
    DS.extract_video_id ( "https://youtu.be/".data ++ id) = .ok id := by
  have hfm : fullmatchId id = true := by simp [fullmatchId, hlen, hall]
  rw [ds_extract_from_ok (urlparse_youtube id hall)]
  simp only [DS.extract_from]
  rw [ytbeCandidate_slash_id id hall []]
  simp +decide [hfm]

theorem splitOnChar_shorts (id : List Char) (hall : id.all isIdChar = true) :
    splitOnChar '/' ( "/shorts/".data ++ id) = [[], "shorts".data, id] := by
  have hmem : '/' ∉ id := not_mem_of_idChars hall (by decide)
  have e1 : "/shorts/".data ++ id = [] ++ '/' :: ( "shorts".data ++ '/' :: id) := rfl
  rw [e1, splitOnChar_sep, splitOnChar_sep]
  rw [splitOnChar_not_mem (show ('/' : Char) ∉ "shorts".data from by decide),
    splitOnChar_not_mem hmem]
  rfl

theorem splitOnChar_live (id : List Char) (hall : id.all isIdChar = true) :
    splitOnChar '/' ( "/live/".data ++ id) = [[], "live".data, id] := by
  have hmem : '/' ∉ id := not_mem_of_idChars hall (by decide)
  have e1 : "/live/".data ++ id = [] ++ '/' :: ( "live".data ++ '/' :: id) := rfl
  rw [e1, splitOnChar_sep, splitOnChar_sep]
  rw [splitOnChar_not_mem (show ('/' : Char) ∉ "live".data from by decide),
    splitOnChar_not_mem hmem]
  rfl

theorem extract_ds_shorts (id : List Char) (hlen : id.length = 11)
    (hall : id.all isIdChar = true) :
    DS.extract_video_id ( "https://www.youtube.com/shorts/".data ++ id) = .ok id := by
  have hne : id ≠ [] := by
    intro he
    rw [he] at hlen
    exact absurd hlen (by decide)
  have hidE : id.isEmpty = false := by
    cases id with
    | nil => exact absurd rfl hne
    | cons a l => rfl
  have hfm : fullmatchId id = true := by simp [fullmatchId, hlen, hall]
  have hsp : splitOnChar '/' ('/' :: 's' :: 'h' :: 'o' :: 'r' :: 't' :: 's' :: '/' :: id) =
      [[], 's' :: 'h' :: 'o' :: 'r' :: 't' :: 's' :: [], id] := splitOnChar_shorts id hall
  rw [ds_extract_from_ok (urlparse_shorts id hall)]
  simp only [DS.extract_from, DS.pathParts]
  simp +decide [hsp, hidE, hfm, List.getD]

theorem extract_ds_live (id : List Char) (hlen : id.length = 11)
    (hall : id.all isIdChar = true) :
    DS.extract_video_id ( "https://www.youtube.com/live/".data ++ id) = .ok id := by
  have hne : id ≠ [] := by
    intro he
    rw [he] at hlen
    exact absurd hlen (by decide)
  have hidE : id.isEmpty = false := by
    cases id with
    | nil => exact absurd rfl hne
    | cons a l => rfl
  have hfm : fullmatchId id = true := by simp [fullmatchId, hlen, hall]
  have hsp : splitOnChar '/' ('/' :: 'l' :: 'i' :: 'v' :: 'e' :: '/' :: id) =
      [[], 'l' :: 'i' :: 'v' :: 'e' :: [], id] := splitOnChar_live id hall
  rw [ds_extract_from_ok (urlparse_live id hall)]
  simp only [DS.extract_from, DS.pathParts]
  simp +decide [hsp, hidE, hfm, List.getD]

theorem extract_gt_watch (id : List Char) (hlen : id.length = 11)
    (hall : id.all isIdChar = true) :
    GT.extract_video_id ( "https://www.youtube.com/watch?v=".data ++ id) = .ok id := by
  have hne : id ≠ [] := by
    intro he
    rw [he] at hlen
    exact absurd hlen (by decide)
  have hfm : fullmatchId id = true := by simp [fullmatchId, hlen, hall]
  have hq : queryV ('v' :: '=' :: id) = id := queryV_v_id id hall hne
  rw [gt_extract_from_ok (urlparse_watch id hall)]
  simp +decide [GT.extract_from, hq, hfm]

theorem extract_gt_youtube (id : List Char) (hlen : id.length = 11)
    (hall : id.all isIdChar = true) :
    GT.extract_video_id ( "https://youtu.be/".data ++ id) = .ok id := by
  have hne : id ≠ [] := by
    intro he
    rw [he] at hlen
    exact absurd hlen (by decide)
  have hidE : id.isEmpty = false := by
    cases id with
    | nil => exact absurd rfl hne
    | cons a l => rfl
  have hfm : fullmatchId id = true := by simp [fullmatchId, hlen, hall]
  have hsplit : splitOnChar '/' ('/' :: id) = [[], id] := by
    have e1 : '/' :: id = [] ++ '/' :: id := rfl
    rw [e1, splitOnChar_sep, splitOnChar_not_mem (not_mem_of_idChars hall (by decide))]
    rfl
  rw [gt_extract_from_ok (urlparse_youtube id hall)]
  simp +decide [GT.extract_from, hsplit, hidE, hfm]

theorem extract_gt_shorts (id : List Char) (hlen : id.length = 11)
    (hall : id.all isIdChar = true) :
    GT.extract_video_id ( "https://www.youtube.com/shorts/".data ++ id) = .ok id := by
  have hne : id ≠ [] := by
    intro he
    rw [he] at hlen
    exact absurd hlen (by decide)
  have hidE : id.isEmpty = false := by
    cases id with
    | nil => exact absurd rfl hne
    | cons a l => rfl
  have hfm : fullmatchId id = true := by simp [fullmatchId, hlen, hall]
  have hsp : splitOnChar '/' ('/' :: 's' :: 'h' :: 'o' :: 'r' :: 't' :: 's' :: '/' :: id) =
      [[], 's' :: 'h' :: 'o' :: 'r' :: 't' :: 's' :: [], id] := splitOnChar_shorts id hall
  rw [gt_extract_from_ok (urlparse_shorts id hall)]
  simp +decide [GT.extract_from, hsp, hidE, hfm, List.getD]

theorem extract_gt_live (id : List Char) (hlen : id.length = 11)
    (hall : id.all isIdChar = true) :
    GT.extract_video_id ( "https://www.youtube.com/live/".data ++ id) = .ok id := by
  have hne : id ≠ [] := by
    intro he
    rw [he] at hlen
    exact absurd hlen (by decide)
  have hidE : id.isEmpty = false := by
    cases id with
    | nil => exact absurd rfl hne
    | cons a l => rfl
  have hfm : fullmatchId id = true := by simp [fullmatchId, hlen, hall]
  have hsp : splitOnChar '/' ('/' :: 'l' :: 'i' :: 'v' :: 'e' :: '/' :: id) =
      [[], 'l' :: 'i' :: 'v' :: 'e' :: [], id] := splitOnChar_live id hall
  rw [gt_extract_from_ok (urlparse_live id hall)]
  simp +decide [GT.extract_from, hsp, hidE, hfm, List.getD]

/-- C6: for every valid 11-character identifier, `extract_video_id` of
src/download_subtitles.py returns exactly that identifier on the four
canonical URL shapes (watch query parameter, short link, shorts, live). -/
theorem extract_video_id_canonical_urls (id : List Char)
    (hlen : id.length = 11) (hall : id.all isIdChar = true) :
    DS.extract_video_id ( "https://www.youtube.com/watch?v=".data ++ id) = .ok id ∧
    DS.extract_video_id ( "https://youtu.be/".data ++ id) = .ok id ∧
    DS.extract_video_id ( "https://www.youtube.com/shorts/".data ++ id) = .ok id ∧
    DS.extract_video_id ( "https://www.youtube.com/live/".data ++ id) = .ok id :=
  ⟨extract_ds_watch id hlen hall, extract_ds_youtube id hlen hall,
    extract_ds_shorts id hlen hall, extract_ds_live id hlen hall⟩

theorem extract_video_id_canonical_urls_witness :
    DS.extract_video_id ( "https://www.youtube.com/watch?v=".data ++ "dQw4w9WgXcQ".data) =
      .ok ( "dQw4w9WgXcQ".data) ∧
    DS.extract_video_id ( "https://youtu.be/".data ++ "dQw4w9WgXcQ".data) =
      .ok ( "dQw4w9WgXcQ".data) ∧
    DS.extract_video_id ( "https://www.youtube.com/shorts/".data ++ "dQw4w9WgXcQ".data) =
      .ok ( "dQw4w9WgXcQ".data) ∧
    DS.extract_video_id ( "https://www.youtube.com/live/".data ++ "dQw4w9WgXcQ".data) =
      .ok ( "dQw4w9WgXcQ".data) :=
  extract_video_id_canonical_urls ( "dQw4w9WgXcQ".data) (by decide) (by decide)

/-- C10 counterexample: the two `extract_video_id` implementations are not
equivalent: on the bare 11-character string, the raw substring search of
src/download_subtitles.py succeeds while the anchored regex of
src/get_transcript.py fails. -/
theorem extract_equivalence_counterexample :
    DS.extract_video_id ( "AAAAAAAAAAA".data) = .ok ( "AAAAAAAAAAA".data) ∧
    GT.extract_video_id ( "AAAAAAAAAAA".data) = .error GT.errorMessage :=
  ⟨by decide, by decide⟩

/-- C10 (amended): the two implementations agree on the four canonical URL
shapes, where both return the identifier; they are not equivalent on
arbitrary URLs (see the counterexample). -/
theorem extract_video_id_agree_canonical (id : List Char)
    (hlen : id.length = 11) (hall : id.all isIdChar = true) :
    (DS.extract_video_id ( "https://www.youtube.com/watch?v=".data ++ id) = .ok id ∧
      GT.extract_video_id ( "https://www.youtube.com/watch?v=".data ++ id) = .ok id) ∧
    (DS.extract_video_id ( "https://youtu.be/".data ++ id) = .ok id ∧
      GT.extract_video_id ( "https://youtu.be/".data ++ id) = .ok id) ∧
    (DS.extract_video_id ( "https://www.youtube.com/shorts/".data ++ id) = .ok id ∧
      GT.extract_video_id ( "https://www.youtube.com/shorts/".data ++ id) = .ok id) ∧
    (DS.extract_video_id ( "https://www.youtube.com/live/".data ++ id) = .ok id ∧
      GT.extract_video_id ( "https://www.youtube.com/live/".data ++ id) = .ok id) :=
  ⟨⟨extract_ds_watch id hlen hall, extract_gt_watch id hlen hall⟩,
    ⟨extract_ds_youtube id hlen hall, extract_gt_youtube id hlen hall⟩,
    ⟨extract_ds_shorts id hlen hall, extract_gt_shorts id hlen hall⟩,
    ⟨extract_ds_live id hlen hall, extract_gt_live id hlen hall⟩⟩

theorem extract_video_id_agree_canonical_witness :
    (DS.extract_video_id ( "https://www.youtube.com/watch?v=".data ++ "Tld91M_bcEI".data) =
        .ok ( "Tld91M_bcEI".data) ∧
      GT.extract_video_id ( "https://www.youtube.com/watch?v=".data ++ "Tld91M_bcEI".data) =
        .ok ( "Tld91M_bcEI".data)) ∧
    (DS.extract_video_id ( "https://youtu.be/".data ++ "Tld91M_bcEI".data) =
        .ok ( "Tld91M_bcEI".data) ∧
      GT.extract_video_id ( "https://youtu.be/".data ++ "Tld91M_bcEI".data) =
        .ok ( "Tld91M_bcEI".data)) ∧
    (DS.extract_video_id ( "https://www.youtube.com/shorts/".data ++ "Tld91M_bcEI".data) =
        .ok ( "Tld91M_bcEI".data) ∧
      GT.extract_video_id ( "https://www.youtube.com/shorts/".data ++ "Tld91M_bcEI".data) =
        .ok ( "Tld91M_bcEI".data)) ∧
    (DS.extract_video_id ( "https://www.youtube.com/live/".data ++ "Tld91M_bcEI".data) =
        .ok ( "Tld91M_bcEI".data) ∧
      GT.extract_video_id ( "https://www.youtube.com/live/".data ++ "Tld91M_bcEI".data) =
        .ok ( "Tld91M_bcEI".data)) :=
  extract_video_id_agree_canonical ( "Tld91M_bcEI".data) (by decide) (by decide)

/-- C5: when URL parsing succeeds, the steps of `extract_video_id`
(src/download_subtitles.py) apply in this exact order, first hit winning:
the short-link-host first path segment (regardless of any `v` query
parameter), then the `v` query parameter, then the second path segment
after watch / live / shorts, then the raw substring search over the whole
URL. -/
theorem extract_video_id_step_order (url : List Char) (p : UrlParts)
    (hp : urlparse url = .ok p) :
    ((( "youtu.be".data).isSuffixOf p.netloc &&
        fullmatchId (DS.ytbeCandidate p)) = true →
      DS.extract_video_id url = .ok (DS.ytbeCandidate p)) ∧
    ((( "youtu.be".data).isSuffixOf p.netloc &&
        fullmatchId (DS.ytbeCandidate p)) = false →
      fullmatchId (queryV p.query) = true →
      DS.extract_video_id url = .ok (queryV p.query)) ∧
    ((( "youtu.be".data).isSuffixOf p.netloc &&
        fullmatchId (DS.ytbeCandidate p)) = false →
      fullmatchId (queryV p.query) = false →
      (decide (2 ≤ (DS.pathParts p).length) &&
        ((DS.pathParts p).headD [] == "watch".data ||
          (DS.pathParts p).headD [] == "live".data ||
          (DS.pathParts p).headD [] == "shorts".data) &&
        fullmatchId ((DS.pathParts p).getD 1 [])) = true →
      DS.extract_video_id url = .ok ((DS.pathParts p).getD 1 [])) ∧
    ((( "youtu.be".data).isSuffixOf p.netloc &&
        fullmatchId (DS.ytbeCandidate p)) = false →
      fullmatchId (queryV p.query) = false →
      (decide (2 ≤ (DS.pathParts p).length) &&
        ((DS.pathParts p).headD [] == "watch".data ||
          (DS.pathParts p).headD [] == "live".data ||
          (DS.pathParts p).headD [] == "shorts".data) &&
        fullmatchId ((DS.pathParts p).getD 1 [])) = false →
      DS.extract_video_id url =
        match searchId url with
        | some m => .ok m
        | none => .error DS.errorMessage) := by
  refine ⟨?_, ?_, ?_, ?_⟩
  · intro h1
    rw [ds_extract_from_ok hp]
    simp only [DS.extract_from, h1, eq_self_iff_true, ite_true]
  · intro h1 h2
    rw [ds_extract_from_ok hp]
    simp only [DS.extract_from, h1, h2, Bool.false_eq_true, ite_false,
      eq_self_iff_true, ite_true]
  · intro h1 h2 h3
    rw [ds_extract_from_ok hp]
    simp only [DS.extract_from, h1, h2, h3, Bool.false_eq_true, ite_false,
      eq_self_iff_true, ite_true]
  · intro h1 h2 h3
    rw [ds_extract_from_ok hp]
    simp only [DS.extract_from, h1, h2, h3, Bool.false_eq_true, ite_false]

theorem extract_video_id_step_order_witness :
    urlparse ( "https://youtu.be/AAAAAAAAAAA?v=BBBBBBBBBBB".data) =
      .ok ⟨ "youtu.be".data, "/AAAAAAAAAAA".data, "v=BBBBBBBBBBB".data⟩ ∧
    DS.extract_video_id ( "https://youtu.be/AAAAAAAAAAA?v=BBBBBBBBBBB".data) =
      .ok ( "AAAAAAAAAAA".data) := by
  refine ⟨by decide, ?_⟩
  have h := (extract_video_id_step_order
    ( "https://youtu.be/AAAAAAAAAAA?v=BBBBBBBBBBB".data)
    ⟨ "youtu.be".data, "/AAAAAAAAAAA".data, "v=BBBBBBBBBBB".data⟩
    (by decide)).1 (by decide)
  rw [h]
  decide

theorem subseg_refl (l : List Char) : SubSeg l l := ⟨[], [], by simp⟩

theorem subseg_nil (l : List Char) : SubSeg [] l := ⟨[], l, by simp⟩

theorem SubSeg.trans {a b c : List Char} (h1 : SubSeg a b) (h2 : SubSeg b c) :
    SubSeg a c := by
  obtain ⟨x, y, hb⟩ := h1
  obtain ⟨u, v, hc⟩ := h2
  exact ⟨u ++ x, y ++ v, by rw [hc, hb]; simp⟩

theorem subseg_mem {m l : List Char} (h : SubSeg m l) {x : Char} (hx : x ∈ m) : x ∈ l := by
  obtain ⟨a, b, hl⟩ := h
  rw [hl]
  simp [hx]

theorem subseg_of_takeWhile (p : Char → Bool) (l : List Char) :
    SubSeg (l.takeWhile p) l :=
  ⟨[], l.dropWhile p, by simp [List.takeWhile_append_dropWhile]⟩

theorem subseg_of_dropWhile (p : Char → Bool) (l : List Char) :
    SubSeg (l.dropWhile p) l :=
  ⟨l.takeWhile p, [], by simp [List.takeWhile_append_dropWhile]⟩

theorem subseg_pystrip (c : Char) (l : List Char) : SubSeg (pystrip c l) l := by
  unfold pystrip
  have h1 : SubSeg (l.dropWhile (fun x => x == c)) l := subseg_of_dropWhile _ l
  refine SubSeg.trans ?_ h1
  set l1 := l.dropWhile (fun x => x == c) with hl1
  refine ⟨[], (l1.reverse.takeWhile (fun x => x == c)).reverse, ?_⟩
  rw [List.nil_append]
  rw [show (l1.reverse.dropWhile (fun x => x == c)).reverse ++
      (l1.reverse.takeWhile (fun x => x == c)).reverse =
      (l1.reverse.takeWhile (fun x => x == c) ++
        l1.reverse.dropWhile (fun x => x == c)).reverse from by
    rw [List.reverse_append]]
  rw [List.takeWhile_append_dropWhile, List.reverse_reverse]

theorem breakAt_decomp (c : Char) : ∀ l : List Char,
    l = (breakAt c l).1 ++
      (match (breakAt c l).2 with
        | some r => c :: r
        | none => []) := by
  intro l
  induction l with
  | nil => rfl
  | cons x xs ih =>
    cases hx : x == c with
    | true =>
      simp only [breakAt, hx, if_true]
      rw [beq_iff_eq.mp hx]
      rfl
    | false =>
      simp only [breakAt, hx, Bool.false_eq_true, if_false]
      conv_lhs => rw [ih]
      rfl

theorem subseg_breakAt_fst (c : Char) (l : List Char) : SubSeg (breakAt c l).1 l :=
  ⟨[], (match (breakAt c l).2 with | some r => c :: r | none => []),
    by rw [List.nil_append]; exact breakAt_decomp c l⟩

theorem subseg_breakAt_snd {c : Char} {l r : List Char}
    (h : (breakAt c l).2 = some r) : SubSeg r l := by
  refine ⟨(breakAt c l).1 ++ [c], [], ?_⟩
  conv_lhs => rw [breakAt_decomp c l]
  rw [h]
  simp

theorem splitOnChar_head_decomp (c : Char) : ∀ l : List Char,
    ∃ r, l = (splitOnChar c l).headD [] ++ r := by
  intro l
  induction l with
  | nil => exact ⟨[], rfl⟩
  | cons x xs ih =>
    obtain ⟨r, hr⟩ := ih
    simp only [splitOnChar]
    cases hs : splitOnChar c xs with
    | nil => exact absurd hs (splitOnChar_ne_nil c xs)
    | cons h t =>
      cases hx : x == c with
      | true => exact ⟨x :: xs, rfl⟩
      | false =>
        refine ⟨r, ?_⟩
        rw [hs] at hr
        simp only [List.headD_cons] at hr
        simp only [Bool.false_eq_true, if_false, List.headD_cons]
        rw [List.cons_append, ← hr]

theorem subseg_splitOnChar (c : Char) : ∀ (l : List Char) (ch : List Char),
    ch ∈ splitOnChar c l → SubSeg ch l := by
  intro l
  induction l with
  | nil =>
    intro ch h
    simp only [splitOnChar, List.mem_singleton] at h
    rw [h]
    exact subseg_nil []
  | cons x xs ih =>
    intro ch h
    simp only [splitOnChar] at h
    cases hs : splitOnChar c xs with
    | nil => exact absurd hs (splitOnChar_ne_nil c xs)
    | cons hd t =>
      rw [hs] at h
      cases hx : x == c with
      | true =>
        rw [hx] at h
        simp only [if_true] at h
        rcases List.mem_cons.mp h with h | h
        · rw [h]; exact subseg_nil _
        · have hsub : SubSeg ch xs := ih ch (by rw [hs]; exact h)
          exact hsub.trans ⟨[x], [], by simp⟩
      | false =>
        rw [hx] at h
        simp only [Bool.false_eq_true, if_false] at h
        rcases List.mem_cons.mp h with h | h
        · obtain ⟨r, hr⟩ := splitOnChar_head_decomp c xs
          rw [hs] at hr
          simp only [List.headD_cons] at hr
          refine ⟨[], r, ?_⟩
          rw [h, List.nil_append, List.cons_append, ← hr]
        · have hsub : SubSeg ch xs := ih ch (by rw [hs]; exact List.mem_cons_of_mem hd h)
          exact hsub.trans ⟨[x], [], by simp⟩

theorem headD_mem {l : List (List Char)} (h : l ≠ []) : l.headD [] ∈ l := by
  cases l with
  | nil => exact absurd rfl h
  | cons a t => exact List.mem_cons_self a t

theorem take_len_append : ∀ (a b : List Char), (a ++ b).take a.length = a := by
  intro a b
  induction a with
  | nil => rfl
  | cons x xs ih => simp [List.take_succ_cons, ih]

theorem fullmatchId_length {m : List Char} (h : fullmatchId m = true) : m.length = 11 := by
  simp only [fullmatchId, Bool.and_eq_true, beq_iff_eq] at h
  exact h.1

theorem mem_tails_of_append {m b : List Char} : ∀ a : List Char,
    m ++ b ∈ (a ++ m ++ b).tails := by
  intro a
  induction a with
  | nil => simp
  | cons x xs ih =>
    simp only [List.cons_append, List.tails_cons, List.mem_cons]
    exact Or.inr ih

theorem containsIdRun_of_subseg {m l : List Char} (h : SubSeg m l)
    (hm : fullmatchId m = true) : containsIdRun l = true := by
  obtain ⟨a, b, hl⟩ := h
  unfold containsIdRun
  rw [List.any_eq_true]
  refine ⟨m ++ b, by rw [hl]; exact mem_tails_of_append a, ?_⟩
  rw [show (11 : Nat) = m.length from (fullmatchId_length hm).symm, take_len_append]
  exact hm

theorem searchId_none_iff : ∀ l : List Char,
    searchId l = none ↔ containsIdRun l = false := by
  intro l
  induction l with
  | nil => simp +decide [searchId, containsIdRun]
  | cons x xs ih =>
    simp only [searchId, containsIdRun, List.tails_cons, List.any_cons]
    cases hf : fullmatchId ((x :: xs).take 11) with
    | true =>
      simp only [if_true]
      constructor
      · intro h; exact absurd h (by simp)
      · intro h; exact absurd h (by simp)
    | false =>
      simp only [Bool.false_eq_true, if_false, Bool.false_or]
      exact ih

theorem subseg_splitScheme (l : List Char) : SubSeg (splitScheme l).2 l := by
  unfold splitScheme
  cases hb : breakAt ':' l with
  | mk f o =>
    cases o with
    | none => exact subseg_refl l
    | some r =>
      dsimp only
      by_cases hc : (!f.isEmpty && (f.headD ' ').isAlpha && f.all isSchemeChar) = true
      · rw [if_pos hc]
        exact subseg_breakAt_snd (by rw [hb])
      · rw [if_neg hc]
        exact subseg_refl l

theorem subseg_splitNetloc_snd (l : List Char) : SubSeg (splitNetloc l).2 l := by
  unfold splitNetloc
  split
  · next rest =>
    exact (subseg_of_dropWhile _ rest).trans ⟨['/', '/'], [], by simp⟩
  · exact subseg_refl l

theorem subseg_splitParams (p : List Char) : SubSeg (splitParams p) p := by
  unfold splitParams
  by_cases hin : ';' ∈ p
  · rw [if_pos hin]
    dsimp only
    have key : ∀ (front L f rest : List Char), p = front ++ L →
        breakAt ';' L = (f, some rest) →
        SubSeg (p.take (p.length - L.length) ++ f) p := by
      intro front L f rest hdec hb
      have hplen : p.length = front.length + L.length := by rw [hdec]; simp
      have htake : p.take (p.length - L.length) = front := by
        have hfl : p.length - L.length = front.length := by omega
        rw [hfl, hdec, take_len_append]
      have hLdec : L = f ++ ';' :: rest := by
        conv_lhs => rw [breakAt_decomp ';' L]
        rw [hb]
      refine ⟨[], ';' :: rest, ?_⟩
      rw [List.nil_append, htake, hdec, hLdec]
      simp [List.append_assoc]
    have hdecomp : p = (p.reverse.dropWhile (fun c => !(c == '/'))).reverse ++
        (p.reverse.takeWhile (fun c => !(c == '/'))).reverse := by
      rw [show (p.reverse.dropWhile (fun c => !(c == '/'))).reverse ++
          (p.reverse.takeWhile (fun c => !(c == '/'))).reverse =
          (p.reverse.takeWhile (fun c => !(c == '/')) ++
            p.reverse.dropWhile (fun c => !(c == '/'))).reverse from by
        rw [List.reverse_append]]
      rw [List.takeWhile_append_dropWhile, List.reverse_reverse]
    cases hbk : breakAt ';' ((p.reverse.takeWhile (fun c => !(c == '/'))).reverse) with
    | mk f o =>
      cases o with
      | none => exact subseg_refl p
      | some rest =>
        dsimp only
        exact key _ _ f rest hdecomp hbk
  · rw [if_neg hin]
    exact subseg_refl p

theorem qs_value_decomp (q : List Char) (pr : List Char × List Char)
    (h : pr ∈ parseQsPairs q) : ∃ raw, SubSeg raw q ∧ pr.2 = unquotePlus raw := by
  unfold parseQsPairs at h
  rw [List.mem_filterMap] at h
  obtain ⟨chunk, hchunk, hf⟩ := h
  have hsub : SubSeg chunk q := subseg_splitOnChar '&' q chunk hchunk
  by_cases he : chunk.isEmpty
  · rw [if_pos he] at hf
    exact absurd hf (by simp)
  · rw [if_neg he] at hf
    cases hbk : breakAt '=' chunk with
    | mk name o =>
      rw [hbk] at hf
      cases o with
      | none => exact absurd hf (by simp)
      | some value =>
        dsimp only at hf
        by_cases hv : value.isEmpty
        · rw [if_pos hv] at hf
          exact absurd hf (by simp)
        · rw [if_neg hv] at hf
          have hpr : (unquotePlus name, unquotePlus value) = pr := Option.some.inj hf
          refine ⟨value, (subseg_breakAt_snd (by rw [hbk])).trans hsub, ?_⟩
          rw [← hpr]

theorem queryV_subseg_or_nil (q : List Char) :
    queryV q = [] ∨ ∃ raw, SubSeg raw q ∧ queryV q = unquotePlus raw := by
  unfold queryV
  cases hf : (parseQsPairs q).find? (fun pr => pr.1 == ['v']) with
  | none => left; rfl
  | some pr =>
    right
    obtain ⟨raw, hsub, hval⟩ := qs_value_decomp q pr (List.mem_of_find?_eq_some hf)
    exact ⟨raw, hsub, hval⟩

theorem plusToSpace_no_percent {v : List Char} (h : '%' ∉ v) : '%' ∉ plusToSpace v := by
  intro hm
  unfold plusToSpace at hm
  rw [List.mem_map] at hm
  obtain ⟨y, hy, hmap⟩ := hm
  by_cases hyp : y = '+'
  · rw [hyp] at hmap
    exact absurd hmap (by decide)
  · rw [if_neg (by simpa using hyp)] at hmap
    rw [hmap] at hy
    exact h hy

theorem plusToSpace_all_id_self {v : List Char}
    (h : (plusToSpace v).all isIdChar = true) : plusToSpace v = v := by
  induction v with
  | nil => rfl
  | cons x xs ih =>
    unfold plusToSpace at h ⊢
    rw [List.map_cons] at h ⊢
    rw [List.all_cons] at h
    obtain ⟨h1, h2⟩ := Bool.and_eq_true_iff.mp h
    have hx : (if (x == '+') = true then ' ' else x) = x := by
      by_cases hxp : x = '+'
      · subst hxp
        rw [if_pos (by decide)] at h1
        exact absurd h1 (by decide)
      · rw [if_neg (by simpa using hxp)]
    rw [hx] at h1 ⊢
    exact congrArg (x :: ·) (ih h2)

theorem fullmatch_unquote_subseg {url raw : List Char}
    (hclean : ∀ c ∈ url, c ≠ '%' ∧ c ≠ '\t' ∧ c ≠ '\r' ∧ c ≠ '\n')
    (hsub : SubSeg raw url)
    (hfm : fullmatchId (unquotePlus raw) = true) :
    SubSeg (unquotePlus raw) url := by
  have hpc : '%' ∉ raw := fun hm => (hclean '%' (subseg_mem hsub hm)).1 rfl
  have hpc2 : '%' ∉ plusToSpace raw := plusToSpace_no_percent hpc
  have hpd : unquotePlus raw = plusToSpace raw := percentDecode_not_mem hpc2
  have hall : (plusToSpace raw).all isIdChar = true := by
    rw [← hpd]
    simp only [fullmatchId, Bool.and_eq_true] at hfm
    exact hfm.2
  rw [hpd, plusToSpace_all_id_self hall]
  exact (subseg_refl raw).trans hsub

theorem urlparse_path_subseg (url : List Char) (p : UrlParts)
    (hid : removeUnsafe (lstripControl url) = lstripControl url)
    (hok : urlparse url = .ok p) :
    SubSeg p.path url := by
  simp only [urlparse] at hok
  rw [hid] at hok
  split at hok
  · exact absurd hok (by simp)
  · injection hok with h
    subst h
    dsimp only
    by_cases hg : (splitScheme (lstripControl url)).1 ∈ uses_params
    · rw [if_pos hg]
      exact ((((subseg_splitParams _).trans (subseg_breakAt_fst '?' _)).trans
        (subseg_breakAt_fst '#' _)).trans (subseg_splitNetloc_snd _)).trans
        ((subseg_splitScheme _).trans (subseg_of_dropWhile c0OrSpace url))
    · rw [if_neg hg]
      exact (((subseg_breakAt_fst '?' _).trans
        (subseg_breakAt_fst '#' _)).trans (subseg_splitNetloc_snd _)).trans
        ((subseg_splitScheme _).trans (subseg_of_dropWhile c0OrSpace url))

theorem urlparse_query_subseg (url : List Char) (p : UrlParts)
    (hid : removeUnsafe (lstripControl url) = lstripControl url)
    (hok : urlparse url = .ok p) :
    SubSeg p.query url ∨ p.query = [] := by
  simp only [urlparse] at hok
  rw [hid] at hok
  split at hok
  · exact absurd hok (by simp)
  · injection hok with h
    subst h
    dsimp only
    cases hq : (breakAt '?'
        ((breakAt '#' ((splitNetloc ((splitScheme (lstripControl url)).2)).2)).1)).2 with
    | none => right; rfl
    | some r =>
      left
      dsimp only
      exact (((subseg_breakAt_snd hq).trans (subseg_breakAt_fst '#' _)).trans
        (subseg_splitNetloc_snd _)).trans
        ((subseg_splitScheme _).trans (subseg_of_dropWhile c0OrSpace url))

/-- C7 counterexamples: a URL with no 11-character identifier-shaped
substring anywhere from which `extract_video_id` still succeeds, because
`parse_qs` percent-decodes the `v` parameter into a valid identifier; and
a URL that does contain such a substring on which `extract_video_id`
still fails, because `urlsplit` raises its Invalid-IPv6-URL `ValueError`
on the unmatched bracket before any extraction step runs. -/
theorem extract_no_raw_match_counterexample :
    containsIdRun ( "https://www.youtube.com/watch?v=abcdefghij%6B".data) = false ∧
    DS.extract_video_id ( "https://www.youtube.com/watch?v=abcdefghij%6B".data) =
      .ok ( "abcdefghijk".data) ∧
    containsIdRun ( "http://[abcdefghijk".data) = true ∧
    DS.extract_video_id ( "http://[abcdefghijk".data) = .error "Invalid IPv6 URL" :=
  ⟨by decide, by decide, by decide, by decide⟩

/-- C7 (amended): for every URL free of percent signs, tabs, carriage
returns and line feeds, containing no 11-character identifier-shaped
substring, extraction fails (with the extractor's own `ValueError` or
with `urlsplit`'s Invalid-IPv6-URL `ValueError`); conversely extraction
fails only when the URL contains no such substring or the URL parsing
step itself raised the propagated `ValueError`. -/
theorem extract_failure_characterization (url : List Char) :
    ((∀ c ∈ url, c ≠ '%' ∧ c ≠ '\t' ∧ c ≠ '\r' ∧ c ≠ '\n') →
      containsIdRun url = false →
      ∃ m, DS.extract_video_id url = .error m) ∧
    (∀ e, DS.extract_video_id url = .error e →
      containsIdRun url = false ∨ urlparse url = .error e) := by
  constructor
  · intro hclean hrun
    have hid : removeUnsafe (lstripControl url) = lstripControl url := by
      apply filter_self
      intro x hx
      have hxu : x ∈ url := subseg_mem (subseg_of_dropWhile _ url) hx
      obtain ⟨-, h2, h3, h4⟩ := hclean x hxu
      simp [isUnsafeUrlChar, h2, h3, h4]
    cases hu : urlparse url with
    | error m => exact ⟨m, by simp only [DS.extract_video_id, hu]⟩
    | ok p =>
      refine ⟨DS.errorMessage, ?_⟩
      have hpath := urlparse_path_subseg url p hid hu
      have hfc1 : fullmatchId (DS.ytbeCandidate p) = false := by
        cases hf : fullmatchId (DS.ytbeCandidate p) with
        | false => rfl
        | true =>
          exfalso
          have hsub : SubSeg (DS.ytbeCandidate p) url := by
            unfold DS.ytbeCandidate
            have hne := splitOnChar_ne_nil '/' (pystrip '/' p.path)
            exact ((subseg_splitOnChar '/' _ _ (headD_mem hne)).trans
              (subseg_pystrip '/' _)).trans hpath
          rw [containsIdRun_of_subseg hsub hf] at hrun
          exact Bool.noConfusion hrun
      have hfc2 : fullmatchId (queryV p.query) = false := by
        cases hf : fullmatchId (queryV p.query) with
        | false => rfl
        | true =>
          exfalso
          rcases queryV_subseg_or_nil (p.query) with hq | ⟨raw, hsubq, hval⟩
          · rw [hq] at hf
            exact absurd hf (by decide)
          · rcases urlparse_query_subseg url p hid hu with hquv | hquv
            · have hsub : SubSeg (queryV p.query) url := by
                rw [hval]
                exact fullmatch_unquote_subseg hclean (hsubq.trans hquv)
                  (by rw [← hval]; exact hf)
              rw [containsIdRun_of_subseg hsub hf] at hrun
              exact Bool.noConfusion hrun
            · rw [hquv] at hf
              exact absurd hf (by decide)
      have hfc3 : (decide (2 ≤ (DS.pathParts p).length) &&
          ((DS.pathParts p).headD [] == "watch".data ||
            (DS.pathParts p).headD [] == "live".data ||
            (DS.pathParts p).headD [] == "shorts".data) &&
          fullmatchId ((DS.pathParts p).getD 1 [])) = false := by
        by_cases h2 : 2 ≤ (DS.pathParts p).length
        · have hlt : 1 < (DS.pathParts p).length := by omega
          have hmem1 : (DS.pathParts p).getD 1 [] ∈
              DS.pathParts p := by
            rw [List.getD_eq_getElem (DS.pathParts p) [] hlt]
            exact List.getElem_mem hlt
          have hmem2 : (DS.pathParts p).getD 1 [] ∈
              splitOnChar '/' p.path := List.mem_of_mem_filter hmem1
          have hsub := (subseg_splitOnChar '/' _ _ hmem2).trans hpath
          have hffail : fullmatchId ((DS.pathParts p).getD 1 []) = false := by
            cases hf : fullmatchId ((DS.pathParts p).getD 1 []) with
            | false => rfl
            | true =>
              exfalso
              rw [containsIdRun_of_subseg hsub hf] at hrun
              exact Bool.noConfusion hrun
          rw [hffail, Bool.and_false]
        · rw [decide_eq_false h2]
          simp
      have hsn : searchId url = none := (searchId_none_iff url).mpr hrun
      rw [ds_extract_from_ok hu]
      simp only [DS.extract_from, hfc1, Bool.and_false, Bool.false_eq_true, ite_false,
        hfc2, hfc3, hsn]
  · intro e he
    cases hu : urlparse url with
    | error m =>
      right
      simp only [DS.extract_video_id, hu] at he
      injection he with hme
      rw [hme]
    | ok p =>
      left
      by_cases hcr : containsIdRun url = false
      · exact hcr
      · exfalso
        have hsome : ∃ m2, searchId url = some m2 := by
          cases hs : searchId url with
          | none => exact absurd ((searchId_none_iff url).mp hs) hcr
          | some m2 => exact ⟨m2, rfl⟩
        obtain ⟨m2, hm⟩ := hsome
        rw [ds_extract_from_ok hu] at he
        simp only [DS.extract_from] at he
        split at he
        · exact Except.noConfusion he
        · split at he
          · exact Except.noConfusion he
          · split at he
            · exact Except.noConfusion he
            · rw [hm] at he
              exact Except.noConfusion he

theorem extract_failure_characterization_witness :
    ∃ m, DS.extract_video_id ( "nothing here".data) = .error m :=
  (extract_failure_characterization ( "nothing here".data)).1 (by decide) (by decide)
